import Mathlib

/-!
Verification of the wasmtoolbox binary decoder (`src/lib/parser.cpp`) and
text-format writer (`src/lib/text_format.cpp`) against their specification.

The decoder is embedded as a state-passing function over the remaining input
bytes (the C++ `Wasm_parser` holds an `istream` plus a one-byte lookahead and a
byte offset; we represent the pair lookahead/stream as the list `rest`, whose
head is the lookahead, and `rest = []` plays the role of `is_->eof()`).
Machine integers are modelled as `Nat`/`Int` with explicit reductions modulo
powers of two where the C++ arithmetic wraps.
-/

namespace Wasmtoolbox

/-- Decoder cursor: `rest` is the lookahead byte followed by the not yet read
part of the stream (`[]` once end-of-file has been reached), `offset` is
`cur_offset`. -/
structure Pstate where
  rest : List Nat
  offset : Nat
deriving DecidableEq

/-- The distinguishable reasons carried by the `std::logic_error`s thrown by
the decoder (each constructor corresponds to one family of message strings in
`parser.cpp`). -/
inductive Err where
  | unexpectedEof (offset : Nat)
  | expectedByte (expected actual offset : Nat)
  | invalidLeb (signed : Bool) (N : Nat) (offset : Nat) (middle : Bool)
  | unknownTag (kind : Nat) (b : Nat) (offset : Nat)
  | unknownOpcode (family : Nat) (code : Nat) (offset : Nat)
  | sectionSizeMismatch (id start stop declared : Nat) (actual : Int)
  | trailingBytes (offset b : Nat)
deriving DecidableEq

/-- Ways a decode can fail to return normally.  `err` is a thrown
`std::logic_error` (the decoder's error channel); `checkAbort` is an aborted
process from a failed `CHECK_NE` (not an exception, it cannot be caught);
`ub` marks executions in which the source performs a shift whose count is not
smaller than the width of the promoted operand (undefined behavior in C++20);
`fuel` is an artifact of the embedding of unbounded loops and is never the
outcome on the inputs appearing in the theorems below. -/
inductive Fail where
  | err (e : Err)
  | checkAbort
  | ub
  | fuel
deriving DecidableEq

/-- State-passing decoder computation, mirroring a `Wasm_parser` member
function: it reads/advances the cursor and either returns a value or throws. -/
def ParseM (α : Type) : Type := Pstate → Except Fail (α × Pstate)

instance : Monad ParseM where
  pure a := fun s => .ok (a, s)
  bind x f := fun s =>
    match x s with
    | .error e => .error e
    | .ok (a, s₁) => f a s₁

@[simp] theorem ParseM.bind_apply {α β : Type} (x : ParseM α) (f : α → ParseM β) (s : Pstate) :
    (x >>= f) s = match x s with
      | .error e => .error e
      | .ok (a, s₁) => f a s₁ := rfl

@[simp] theorem ParseM.pure_apply {α : Type} (a : α) (s : Pstate) :
    (pure a : ParseM α) s = .ok (a, s) := rfl

@[simp] theorem ParseM.map_apply {α β : Type} (g : α → β) (x : ParseM α) (s : Pstate) :
    (g <$> x) s = match x s with
      | .error e => .error e
      | .ok (a, s₁) => .ok (g a, s₁) := rfl

def throwP {α : Type} (e : Fail) : ParseM α := fun _ => .error e

@[simp] theorem throwP_apply {α : Type} (e : Fail) (s : Pstate) :
    (throwP (α := α) e) s = .error e := rfl

def getOffset : ParseM Nat := fun s => .ok (s.offset, s)

@[simp] theorem getOffset_apply (s : Pstate) : getOffset s = .ok (s.offset, s) := rfl

/-- The value of `cur_byte`.  After end-of-file the C++ member holds
`static_cast<uint8_t>(istream::get())` = `0xFF` (`get` returns `-1`), which is
what the source compares against in its peeking guards. -/
def peekByte (s : Pstate) : Nat :=
  match s.rest with
  | [] => 0xFF
  | b :: _ => b

def peekCur : ParseM Nat := fun s => .ok (peekByte s, s)

@[simp] theorem peekCur_apply (s : Pstate) : peekCur s = .ok (peekByte s, s) := rfl

def isEof : ParseM Bool := fun s => .ok (s.rest.isEmpty, s)

@[simp] theorem isEof_apply (s : Pstate) : isEof s = .ok (s.rest.isEmpty, s) := rfl

-- 5.2.1 Bytes

def parse_byte : ParseM Nat := fun s =>
  match s.rest with
  | [] => .error (.err (.unexpectedEof s.offset))
  | b :: t => .ok (b, ⟨t, s.offset + 1⟩)

@[simp] theorem parse_byte_nil (off : Nat) :
    parse_byte ⟨[], off⟩ = .error (.err (.unexpectedEof off)) := rfl

@[simp] theorem parse_byte_cons (b : Nat) (t : List Nat) (off : Nat) :
    parse_byte ⟨b :: t, off⟩ = .ok (b, ⟨t, off + 1⟩) := rfl

def match_byte (expected : Nat) : ParseM Unit := fun s =>
  match parse_byte s with
  | .error e => .error e
  | .ok (actual, s₁) =>
    if actual = expected then .ok ((), s₁)
    else .error (.err (.expectedByte expected actual s.offset))

def maybe_match_byte (probe : Nat) : ParseM Bool := fun s =>
  if peekByte s = probe then
    match parse_byte s with
    | .error e => .error e
    | .ok (_, s₁) => .ok (true, s₁)
  else .ok (false, s)

/-- `skip_bytes(count)`: no-op for `count ≤ 0`; fails with `UnexpectedEof`
when fewer than `count` bytes (lookahead included) remain. -/
def skip_bytes (count : Int) : ParseM Unit := fun s =>
  if count ≤ 0 then .ok ((), s)
  else if (s.rest.length : Int) < count then .error (.err (.unexpectedEof s.offset))
  else .ok ((), ⟨s.rest.drop count.toNat, s.offset + count.toNat⟩)

-- 5.2.2 Integers (LEB128)

/-- Sign extension of a 32-bit pattern into a 64-bit pattern, as happens when
the C++ `int` intermediate is OR-ed into the 64-bit accumulator. -/
def sext32to64 (w : Nat) : Nat :=
  if w < 2 ^ 31 then w else w + (2 ^ 64 - 2 ^ 32)

/-- The 64-bit pattern produced by the C++ expression `(v) << shift` where `v`
is a small non-negative value of type `int` (after integral promotion) and
`shift < 32`: C++20 defines the shift as multiplication modulo `2^32`, and the
resulting `int` is sign-extended on conversion to 64 bits. -/
def shl_i32 (v s : Nat) : Nat := sext32to64 ((v * 2 ^ s) % 2 ^ 32)

/-- Loop of `Wasm_parser::internal_parse_uN`.  Arguments after the byte list:
current offset, `N_now`, `shift`, `result`.  `err_off` is the offset recorded
on entry, used in the `InvalidLeb128` messages. -/
def uN_loop (N err_off : Nat) : List Nat → Nat → Nat → Nat → Nat → Except Fail (Nat × Pstate)
  | [], off, _, _, _ => .error (.err (.unexpectedEof off))
  | b :: t, off, N_now, shift, acc =>
    let acc' := acc ||| shl_i32 (b &&& 0x7f) shift
    if b &&& 0x80 = 0 then
      if N_now < 8 ∧ 2 ^ N_now ≤ b then .error (.err (.invalidLeb false N err_off false))
      else .ok (acc', ⟨t, off + 1⟩)
    else
      if N_now ≤ 7 then .error (.err (.invalidLeb false N err_off true))
      else uN_loop N err_off t (off + 1) (N_now - 7) (shift + 7) acc'

def internal_parse_uN (N : Nat) : ParseM Nat := fun s =>
  uN_loop N s.offset s.rest s.offset N 0 0

def parse_u8 : ParseM Nat := (fun v => v % 2 ^ 8) <$> internal_parse_uN 8

def parse_u16 : ParseM Nat := (fun v => v % 2 ^ 16) <$> internal_parse_uN 16

def parse_u32 : ParseM Nat := (fun v => v % 2 ^ 32) <$> internal_parse_uN 32

/-- Two's-complement reading of a 64-bit pattern as an `int64_t` value. -/
def toI64 (p : Nat) : Int := if p < 2 ^ 63 then (p : Int) else (p : Int) - 2 ^ 64

/-- Loop of `Wasm_parser::internal_parse_sN`, accumulating the 64-bit pattern
of the `int64_t` result.  The contributions of middle bytes and of a positive
trailing byte are computed in 32-bit `int` arithmetic in the source (integral
promotion of `uint8_t`); a shift count of 32 or more on that `int` is
undefined behavior in C++20, returned here as `Fail.ub`.  The negative
trailing byte contribution `(int64_t{n} - int64_t{0x80}) << shift` is 64-bit
and wraps modulo `2^64`. -/
def sN_loop (N err_off : Nat) : List Nat → Nat → Nat → Nat → Nat → Except Fail (Nat × Pstate)
  | [], off, _, _, _ => .error (.err (.unexpectedEof off))
  | b :: t, off, N_now, shift, acc =>
    if b &&& 0x80 = 0 then
      if b &&& 0x40 = 0 then
        if N_now < 8 ∧ 2 ^ (N_now - 1) ≤ b then .error (.err (.invalidLeb true N err_off false))
        else if 32 ≤ shift then .error .ub
        else .ok (acc ||| shl_i32 (b &&& 0x3f) shift, ⟨t, off + 1⟩)
      else
        if N_now < 8 ∧ b < 2 ^ 7 - 2 ^ (N_now - 1) then .error (.err (.invalidLeb true N err_off false))
        else .ok (acc ||| ((b + 2 ^ 64 - 0x80) * 2 ^ shift) % 2 ^ 64, ⟨t, off + 1⟩)
    else
      if N_now ≤ 7 then .error (.err (.invalidLeb true N err_off true))
      else if 32 ≤ shift then .error .ub
      else sN_loop N err_off t (off + 1) (N_now - 7) (shift + 7) (acc ||| shl_i32 (b &&& 0x7f) shift)

def internal_parse_sN (N : Nat) : ParseM Int := fun s =>
  match sN_loop N s.offset s.rest s.offset N 0 0 with
  | .error e => .error e
  | .ok (p, s₁) => .ok (toI64 p, s₁)

/-- `static_cast` of an `int64_t` value to a narrower signed type of width `w`
(two's complement truncation). -/
def castS (w : Nat) (v : Int) : Int :=
  let r := v % (2 ^ w : Int)
  if r < 2 ^ (w - 1) then r else r - 2 ^ w

def parse_s8 : ParseM Int := castS 8 <$> internal_parse_sN 8

def parse_s16 : ParseM Int := castS 16 <$> internal_parse_sN 16

def parse_s33 : ParseM Int := internal_parse_sN 33

def parse_i32 : ParseM Int := castS 32 <$> internal_parse_sN 32

def parse_i64 : ParseM Int := internal_parse_sN 64

-- 5.2.3 Floating-Point (the IEEE-754 bit patterns are kept as numbers; the
-- `std::bit_cast` to float/double is a bitwise reinterpretation)

def parse_f32 : ParseM Nat := do
  let b0 ← parse_byte
  let b1 ← parse_byte
  let b2 ← parse_byte
  let b3 ← parse_byte
  pure (b0 ||| b1 <<< 8 ||| b2 <<< 16 ||| b3 <<< 24)

def parse_f64 : ParseM Nat := do
  let b0 ← parse_byte
  let b1 ← parse_byte
  let b2 ← parse_byte
  let b3 ← parse_byte
  let b4 ← parse_byte
  let b5 ← parse_byte
  let b6 ← parse_byte
  let b7 ← parse_byte
  pure (b0 ||| b1 <<< 8 ||| b2 <<< 16 ||| b3 <<< 24 ||| b4 <<< 32 ||| b5 <<< 40 |||
        b6 <<< 48 ||| b7 <<< 56)

-- 5.1.3 Vectors and 5.2.4 Names

def vecLoop {α : Type} (p : Nat → ParseM α) : Nat → Nat → ParseM (List α)
  | 0, _ => pure []
  | k + 1, i => do
    let a ← p i
    let rest ← vecLoop p k (i + 1)
    pure (a :: rest)

/-- `Wasm_parser::parse_vec`: a `u32` count, a `reserve` (modelled as always
succeeding), a `CHECK_NE(n, uint32_max)` that aborts the process when the
count is `0xFFFFFFFF`, then `n` elements. -/
def parse_vec {α : Type} (p : Nat → ParseM α) : ParseM (List α) := do
  let n ← parse_u32
  if n = 0xFFFFFFFF then throwP .checkAbort
  else vecLoop p n 0

def nameLoop : Nat → ParseM (List Nat)
  | 0 => pure []
  | k + 1 => do
    let b ← parse_byte
    let r ← nameLoop k
    pure (b :: r)

/-- `Wasm_parser::parse_name`: like `parse_vec` over bytes (the source
duplicates the loop to avoid an intermediate vector), including the
`CHECK_NE` abort on a count of `0xFFFFFFFF`. -/
def parse_name : ParseM (List Nat) := do
  let n ← parse_u32
  if n = 0xFFFFFFFF then throwP .checkAbort
  else nameLoop n

-- 2.3 Types (ast.h).  The seven value types are packed into a single enum in
-- the source; numtype/vectype/reftype are aliases of valtype.

inductive Ast_valtype where
  | k_numtype_i32
  | k_numtype_i64
  | k_numtype_f32
  | k_numtype_f64
  | k_vectype_v128
  | k_reftype_funcref
  | k_reftype_externref
deriving DecidableEq

structure Ast_functype where
  params : List Ast_valtype
  results : List Ast_valtype
deriving DecidableEq

/-- `Ast_import` as constructed in `Wasm_parser::parse_import` and read by
`Text_format_writer::write_import`: the two name strings (byte strings; the
decoded descriptor payload is not retained). -/
structure Ast_import where
  module : List Nat
  name : List Nat
deriving DecidableEq

/-- `Ast_module` as populated by `Wasm_parser::parse_module`: the optional
name from the "name" custom section, the type section and the import
section. -/
structure Ast_module where
  name : Option (List Nat) := none
  types : List Ast_functype := []
  imports : List Ast_import := []
deriving DecidableEq

-- 5.3 Types

def parse_numtype : ParseM Ast_valtype := fun s =>
  match parse_byte s with
  | .error e => .error e
  | .ok (b, s₁) =>
    match b with
    | 0x7F => .ok (.k_numtype_i32, s₁)
    | 0x7E => .ok (.k_numtype_i64, s₁)
    | 0x7D => .ok (.k_numtype_f32, s₁)
    | 0x7C => .ok (.k_numtype_f64, s₁)
    | _ => .error (.err (.unknownTag 0 b s.offset))

def parse_vectype : ParseM Ast_valtype := fun s =>
  match parse_byte s with
  | .error e => .error e
  | .ok (b, s₁) =>
    match b with
    | 0x7B => .ok (.k_vectype_v128, s₁)
    | _ => .error (.err (.unknownTag 1 b s.offset))

def parse_reftype : ParseM Ast_valtype := fun s =>
  match parse_byte s with
  | .error e => .error e
  | .ok (b, s₁) =>
    match b with
    | 0x70 => .ok (.k_reftype_funcref, s₁)
    | 0x6F => .ok (.k_reftype_externref, s₁)
    | _ => .error (.err (.unknownTag 2 b s.offset))

def can_parse_valtype_byte (b : Nat) : Bool :=
  match b with
  | 0x7F | 0x7E | 0x7D | 0x7C | 0x7B | 0x70 | 0x6F => true
  | _ => false

def can_parse_valtype : ParseM Bool := fun s =>
  .ok (can_parse_valtype_byte (peekByte s), s)

def parse_valtype : ParseM Ast_valtype := fun s =>
  match peekByte s with
  | 0x7F | 0x7E | 0x7D | 0x7C => parse_numtype s
  | 0x7B => parse_vectype s
  | 0x70 | 0x6F => parse_reftype s
  | b => .error (.err (.unknownTag 3 b s.offset))

def parse_resulttype : ParseM (List Ast_valtype) :=
  parse_vec (fun _ => parse_valtype)

def parse_functype : ParseM Ast_functype := do
  match_byte 0x60
  let params ← parse_resulttype
  let results ← parse_resulttype
  pure ⟨params, results⟩

def parse_limits : ParseM Unit := fun s =>
  match parse_byte s with
  | .error e => .error e
  | .ok (b, s₁) =>
    match b with
    | 0x00 => (do let _ ← parse_u32; pure ()) s₁
    | 0x01 => (do let _ ← parse_u32; let _ ← parse_u32; pure ()) s₁
    | 0x02 => (do let _ ← parse_u32; pure ()) s₁
    | 0x03 => (do let _ ← parse_u32; let _ ← parse_u32; pure ()) s₁
    | _ => .error (.err (.unknownTag 4 b s.offset))

def parse_memtype : ParseM Unit := parse_limits

def parse_tabletype : ParseM Unit := do
  let _ ← parse_reftype
  parse_limits

def parse_mut : ParseM Unit := fun s =>
  match parse_byte s with
  | .error e => .error e
  | .ok (b, s₁) =>
    match b with
    | 0x00 => .ok ((), s₁)
    | 0x01 => .ok ((), s₁)
    | _ => .error (.err (.unknownTag 5 b s.offset))

def parse_globaltype : ParseM Unit := do
  let _ ← parse_valtype
  parse_mut

def parse_tagtype : ParseM Unit := do
  match_byte 0x00
  let _ ← parse_functype
  pure ()

-- 5.5.1 Indices

def parse_typeidx : ParseM Unit := do let _ ← parse_u32; pure ()
def parse_funcidx : ParseM Unit := do let _ ← parse_u32; pure ()
def parse_tableidx : ParseM Unit := do let _ ← parse_u32; pure ()
def parse_memidx : ParseM Unit := do let _ ← parse_u32; pure ()
def parse_tagidx : ParseM Unit := do let _ ← parse_u32; pure ()
def parse_globalidx : ParseM Unit := do let _ ← parse_u32; pure ()
def parse_dataidx : ParseM Unit := do let _ ← parse_u32; pure ()
def parse_localidx : ParseM Unit := do let _ ← parse_u32; pure ()
def parse_labelidx : ParseM Unit := do let _ ← parse_u32; pure ()

-- 5.4 Instructions

def parse_memarg : ParseM Unit := do
  let _ ← parse_u32
  let _ ← parse_u32
  pure ()

def parse_blocktype : ParseM Unit := do
  let matched ← maybe_match_byte 0x40
  if matched then pure ()
  else do
    let can ← can_parse_valtype
    if can then do let _ ← parse_valtype; pure ()
    else do let _ ← parse_s33; pure ()

/-- Opcodes with no immediate operands recognized by the big `switch` of
`Wasm_parser::parse_instr` (numeric comparisons, arithmetic, conversions,
parametric instructions, `unreachable`, `nop`, `return`). -/
def no_operand_opcode (b : Nat) : Bool :=
  match b with
  | 0x00 | 0x01 | 0x0f | 0x1a | 0x1b => true
  | 0x45 | 0x46 | 0x47 | 0x48 | 0x49 | 0x4a | 0x4b | 0x4c | 0x4d | 0x4e | 0x4f => true
  | 0x50 | 0x51 | 0x52 | 0x53 | 0x54 | 0x55 | 0x56 | 0x57 | 0x58 | 0x59 | 0x5a => true
  | 0x61 | 0x62 | 0x63 | 0x64 | 0x65 | 0x66 => true
  | 0x67 | 0x68 | 0x6a | 0x6b | 0x6c | 0x6d | 0x6e | 0x6f | 0x70 | 0x71 | 0x72
  | 0x73 | 0x74 | 0x75 | 0x76 | 0x77 => true
  | 0x79 | 0x7a | 0x7c | 0x7d | 0x7e | 0x7f | 0x80 | 0x81 | 0x82 | 0x83 | 0x84
  | 0x85 | 0x86 | 0x87 | 0x88 => true
  | 0x94 => true
  | 0x99 | 0x9a | 0x9b | 0x9c | 0x9f | 0xa0 | 0xa1 | 0xa2 | 0xa3 => true
  | 0xa7 | 0xaa | 0xab | 0xac | 0xad | 0xb0 | 0xb1 | 0xb2 | 0xb6 | 0xb7 | 0xb8
  | 0xb9 | 0xba | 0xbb | 0xbc | 0xbd | 0xbe | 0xbf => true
  | 0xc0 | 0xc1 | 0xc2 | 0xc3 => true
  | _ => false

/-- Opcodes taking a single `memarg` (the memory loads and stores
0x28–0x3E). -/
def memarg_opcode (b : Nat) : Bool :=
  0x28 ≤ b && b ≤ 0x3e

/-- Opcodes taking a single label index (`br`, `br_if`, `rethrow`). -/
def labelidx_opcode (b : Nat) : Bool :=
  match b with
  | 0x09 | 0x0c | 0x0d => true
  | _ => false

/-- Opcodes taking a single local index (`local.get/set/tee`). -/
def localidx_opcode (b : Nat) : Bool :=
  match b with
  | 0x20 | 0x21 | 0x22 => true
  | _ => false

/-- Opcodes taking a single global index (`global.get/set`). -/
def globalidx_opcode (b : Nat) : Bool :=
  match b with
  | 0x23 | 0x24 => true
  | _ => false

/-- Secondary opcodes recognized after the atomic 0xFE opcode byte; each
takes a `memarg`. -/
def atomic_opcode2 (b : Nat) : Bool :=
  match b with
  | 0x00 | 0x01 | 0x10 | 0x11 | 0x12 | 0x17 | 0x18 | 0x19 | 0x1e | 0x25
  | 0x33 | 0x41 | 0x43 | 0x48 | 0x4a => true
  | _ => false

mutual

/-- `Wasm_parser::parse_instr`, with a fuel argument bounding the recursion
depth of the embedding (the C++ recursion is bounded by the input length). -/
def parse_instr : Nat → ParseM Unit
  | 0 => throwP .fuel
  | fuel + 1 => do
    let opcode_offset ← getOffset
    let opcode ← parse_byte
    match opcode with
    | 0x02 => do       -- block
      parse_blocktype
      parse_instrs_until fuel [0x0b]
      match_byte 0x0b
    | 0x03 => do       -- loop
      parse_blocktype
      parse_instrs_until fuel [0x0b]
      match_byte 0x0b
    | 0x04 => do       -- if
      parse_blocktype
      parse_instrs_until fuel [0x05, 0x0b]
      let c ← peekCur
      if c = 0x05 then do
        match_byte 0x05
        parse_instrs_until fuel [0x0b]
      else pure ()
      match_byte 0x0b
    | 0x06 => do       -- try
      parse_blocktype
      parse_instrs_until fuel [0x07, 0x19, 0x18, 0x0b]
      let c ← peekCur
      if c = 0x18 then do   -- try-delegate
        match_byte 0x18
        parse_labelidx
      else do               -- try-catch
        parse_try_catches fuel
        parse_try_catchalls fuel
        match_byte 0x0b
    | 0x08 => parse_tagidx            -- throw
    | 0x0e => do                      -- br_table
      let _ ← parse_vec (fun _ => parse_labelidx)
      parse_labelidx
    | 0x10 => parse_funcidx           -- call
    | 0x11 => do                      -- call_indirect
      parse_typeidx
      parse_tableidx
    | 0x3f => match_byte 0x00         -- memory.size
    | 0xfe => do                      -- atomic instructions (threads)
      let opcode2_offset ← getOffset
      let opcode2 ← parse_u32
      if atomic_opcode2 opcode2 then parse_memarg
      else throwP (.err (.unknownOpcode 2 opcode2 opcode2_offset))
    | 0x41 => do let _ ← parse_i32; pure ()   -- i32.const
    | 0x42 => do let _ ← parse_i64; pure ()   -- i64.const
    | 0x43 => do let _ ← parse_f32; pure ()   -- f32.const
    | 0x44 => do let _ ← parse_f64; pure ()   -- f64.const
    | 0xfc => do                      -- extended instructions
      let opcode2_offset ← getOffset
      let opcode2 ← parse_u32
      match opcode2 with
      | 8 => do                       -- memory.init
        parse_dataidx
        match_byte 0x00
      | 9 => parse_dataidx            -- data.drop
      | 10 => do                      -- memory.copy
        match_byte 0x00
        match_byte 0x00
      | 11 => match_byte 0x00         -- memory.fill
      | _ => throwP (.err (.unknownOpcode 1 opcode2 opcode2_offset))
    | b =>
      if labelidx_opcode b then parse_labelidx
      else if localidx_opcode b then parse_localidx
      else if globalidx_opcode b then parse_globalidx
      else if memarg_opcode b then parse_memarg
      else if no_operand_opcode b then pure ()
      else throwP (.err (.unknownOpcode 0 b opcode_offset))

/-- `while (cur_byte ∉ stops) parse_instr();` -/
def parse_instrs_until : Nat → List Nat → ParseM Unit
  | 0, _ => throwP .fuel
  | fuel + 1, stops => do
    let c ← peekCur
    if c ∈ stops then pure ()
    else do
      parse_instr fuel
      parse_instrs_until fuel stops

/-- `while (cur_byte == catch) { match catch; tagidx; body }` of the
try-catch form. -/
def parse_try_catches : Nat → ParseM Unit
  | 0 => throwP .fuel
  | fuel + 1 => do
    let c ← peekCur
    if c = 0x07 then do
      match_byte 0x07
      parse_tagidx
      parse_instrs_until fuel [0x07, 0x19, 0x0b]
      parse_try_catches fuel
    else pure ()

/-- `while (cur_byte == catch_all) { match catch_all; body }` of the
try-catch form. -/
def parse_try_catchalls : Nat → ParseM Unit
  | 0 => throwP .fuel
  | fuel + 1 => do
    let c ← peekCur
    if c = 0x19 then do
      match_byte 0x19
      parse_instrs_until fuel [0x19, 0x0b]
      parse_try_catchalls fuel
    else pure ()

end

/-- `Wasm_parser::parse_expr`: instructions until the `end` opcode, then the
`end` opcode. -/
def parse_expr (fuel : Nat) : ParseM Unit := do
  parse_instrs_until fuel [0x0b]
  match_byte 0x0b

-- 5.5.2 Sections

/-- `Wasm_parser::parse_section`: section id byte, declared `u32` size, body,
then the check that the body consumed exactly the declared size (computed on
`long` offsets, hence the `Int` subtraction). -/
def parse_section {α : Type} (id : Nat) (body : Nat → ParseM α) : ParseM α := do
  match_byte id
  let declared ← parse_u32
  let start ← getOffset
  let a ← body declared
  let stop ← getOffset
  if ((stop : Int) - (start : Int)) = (declared : Int) then pure a
  else throwP (.err (.sectionSizeMismatch id start stop declared ((stop : Int) - (start : Int))))

-- 5.5.3 Custom section and the "name" custom section

def parse_namesubsection {α : Type} (N : Nat) (body : Nat → ParseM α) : ParseM α := do
  match_byte N
  let size ← parse_u32
  body size

def parse_modulenamesubsec : ParseM (List Nat) :=
  parse_namesubsection 0 (fun _ => parse_name)

def parse_nameassoc : ParseM Unit := do
  let _ ← parse_u32
  let _ ← parse_name
  pure ()

def parse_namemap : ParseM (List Unit) :=
  parse_vec (fun _ => parse_nameassoc)

def parse_indirectnameassoc : ParseM Unit := do
  let _ ← parse_u32
  let _ ← parse_namemap
  pure ()

def parse_indirectnamemap : ParseM (List Unit) :=
  parse_vec (fun _ => parse_indirectnameassoc)

def parse_funcnamesubsec : ParseM Unit :=
  parse_namesubsection 1 (fun _ => do let _ ← parse_namemap; pure ())

def parse_localnamesubsec : ParseM Unit :=
  parse_namesubsection 2 (fun _ => do let _ ← parse_indirectnamemap; pure ())

def parse_globalnamesubsec : ParseM Unit :=
  parse_namesubsection 7 (fun _ => do let _ ← parse_namemap; pure ())

def parse_datasegmentnamesubsec : ParseM Unit :=
  parse_namesubsection 9 (fun _ => do let _ ← parse_namemap; pure ())

/-- `while (cur_offset < end_offset)` loop over the name subsections of a
"name" custom section; the unrecognized-id branch warns on the diagnostic
channel (not modelled) and skips the declared subsection size.  The fuel
argument is an artifact of the embedding; each iteration consumes at least
one byte. -/
def nameSubsecsLoop : Nat → Nat → Ast_module → ParseM Ast_module
  | 0, _, _ => throwP .fuel
  | fuel + 1, endOff, m => fun s =>
    if s.offset < endOff then
      (do
        let c ← peekCur
        if c = 0 then do
          let nm ← parse_modulenamesubsec
          nameSubsecsLoop fuel endOff { m with name := some nm }
        else if c = 1 then do
          parse_funcnamesubsec
          nameSubsecsLoop fuel endOff m
        else if c = 2 then do
          parse_localnamesubsec
          nameSubsecsLoop fuel endOff m
        else if c = 7 then do
          parse_globalnamesubsec
          nameSubsecsLoop fuel endOff m
        else if c = 9 then do
          parse_datasegmentnamesubsec
          nameSubsecsLoop fuel endOff m
        else do
          parse_namesubsection c (fun subsection_size => skip_bytes (subsection_size : Int))
          nameSubsecsLoop fuel endOff m) s
    else .ok (m, s)

/-- The ASCII bytes of a string literal. -/
def strBytes (s : String) : List Nat := s.toList.map Char.toNat

/-- `Wasm_parser::parse_customsec`.  The diagnostic prints to `std::cerr` are
not modelled (they do not affect the decode). -/
def parse_customsec (m : Ast_module) : ParseM Ast_module :=
  parse_section 0 (fun size => fun s0 =>
    (do
      let nm ← parse_name
      if nm = strBytes "name" then
        nameSubsecsLoop (size + 1) (s0.offset + size) m
      else if nm = strBytes "sourceMappingURL" then do
        let _url ← parse_name
        let off ← getOffset
        if off ≠ s0.offset + size then
          skip_bytes (((s0.offset + size : Nat) : Int) - (off : Int))
        else pure ()
        pure m
      else do
        let off ← getOffset
        skip_bytes ((size : Int) - ((off : Int) - (s0.offset : Int)))
        pure m) s0)

-- 5.5.4 – 5.5.16 The numbered sections

def parse_typesec : ParseM (List Ast_functype) :=
  parse_section 1 (fun _ => parse_vec (fun _ => parse_functype))

def parse_tag : ParseM Unit := do
  match_byte 0x00
  parse_typeidx

def parse_importdesc : ParseM Unit := fun s =>
  match parse_byte s with
  | .error e => .error e
  | .ok (b, s₁) =>
    match b with
    | 0x00 => parse_typeidx s₁
    | 0x01 => parse_tabletype s₁
    | 0x02 => parse_memtype s₁
    | 0x03 => parse_globaltype s₁
    | 0x04 => parse_tag s₁
    | _ => .error (.err (.unknownTag 6 b s.offset))

def parse_import : ParseM Ast_import := do
  let module ← parse_name
  let name ← parse_name
  parse_importdesc
  pure ⟨module, name⟩

def parse_importsec : ParseM (List Ast_import) :=
  parse_section 2 (fun _ => parse_vec (fun _ => parse_import))

def parse_funcsec : ParseM (List Unit) :=
  parse_section 3 (fun _ => parse_vec (fun _ => parse_typeidx))

def parse_table : ParseM Unit := parse_tabletype

def parse_tablesec : ParseM (List Unit) :=
  parse_section 4 (fun _ => parse_vec (fun _ => parse_table))

def parse_mem : ParseM Unit := parse_memtype

def parse_memsec : ParseM (List Unit) :=
  parse_section 5 (fun _ => parse_vec (fun _ => parse_mem))

def parse_global (fuel : Nat) : ParseM Unit := do
  parse_globaltype
  parse_expr fuel

def parse_globalsec (fuel : Nat) : ParseM (List Unit) :=
  parse_section 6 (fun _ => parse_vec (fun _ => parse_global fuel))

def parse_exportdesc : ParseM Unit := fun s =>
  match parse_byte s with
  | .error e => .error e
  | .ok (b, s₁) =>
    match b with
    | 0x00 => parse_funcidx s₁
    | 0x01 => parse_tableidx s₁
    | 0x02 => parse_memidx s₁
    | 0x03 => parse_globalidx s₁
    | 0x04 => parse_tagidx s₁
    | _ => .error (.err (.unknownTag 7 b s.offset))

def parse_export : ParseM Unit := do
  let _ ← parse_name
  parse_exportdesc

def parse_exportsec : ParseM (List Unit) :=
  parse_section 7 (fun _ => parse_vec (fun _ => parse_export))

def parse_start : ParseM Unit := parse_funcidx

def parse_startsec : ParseM Unit :=
  parse_section 8 (fun _ => parse_start)

def parse_elem (fuel : Nat) : ParseM Unit := fun s =>
  match parse_u32 s with
  | .error e => .error e
  | .ok (d, s₁) =>
    match d with
    | 0 =>
      (do
        parse_expr fuel
        let _ ← parse_vec (fun _ => parse_funcidx)
        pure ()) s₁
    | _ => .error (.err (.unknownTag 8 d s.offset))

def parse_elemsec (fuel : Nat) : ParseM (List Unit) :=
  parse_section 9 (fun _ => parse_vec (fun _ => parse_elem fuel))

def parse_locals : ParseM Unit := do
  let _ ← parse_u32
  let _ ← parse_valtype
  pure ()

def parse_func (fuel : Nat) : ParseM Unit := do
  let _ ← parse_vec (fun _ => parse_locals)
  parse_expr fuel

def parse_code (fuel : Nat) : ParseM Unit := do
  let _ ← parse_u32
  parse_func fuel

def parse_codesec (fuel : Nat) : ParseM (List Unit) :=
  parse_section 10 (fun _ => parse_vec (fun _ => parse_code fuel))

def parse_data (fuel : Nat) : ParseM Unit := fun s =>
  match parse_u32 s with
  | .error e => .error e
  | .ok (d, s₁) =>
    match d with
    | 0 =>
      (do
        parse_expr fuel
        let _ ← parse_vec (fun _ => parse_byte)
        pure ()) s₁
    | 1 =>
      (do
        let _ ← parse_vec (fun _ => parse_byte)
        pure ()) s₁
    | 2 =>
      (do
        parse_memidx
        parse_expr fuel
        let _ ← parse_vec (fun _ => parse_byte)
        pure ()) s₁
    | _ => .error (.err (.unknownTag 9 d s.offset))

def parse_datasec (fuel : Nat) : ParseM (List Unit) :=
  parse_section 11 (fun _ => parse_vec (fun _ => parse_data fuel))

def parse_datacountsec : ParseM Nat :=
  parse_section 12 (fun _ => parse_u32)

def parse_tagsec : ParseM (List Unit) :=
  parse_section 13 (fun _ => parse_vec (fun _ => parse_tag))

-- 5.5.16 Modules

def parse_magic : ParseM Unit := do
  match_byte 0x00
  match_byte 0x61
  match_byte 0x73
  match_byte 0x6D

def parse_version : ParseM Unit := do
  match_byte 0x01
  match_byte 0x00
  match_byte 0x00
  match_byte 0x00

/-- `while (not eof && cur_byte == 0) parse_customsec(module);` -/
def parse_opt_customsecs : Nat → Ast_module → ParseM Ast_module
  | 0, _ => throwP .fuel
  | fuel + 1, m => fun s =>
    if s.rest.isEmpty = false ∧ peekByte s = 0 then
      (do
        let m₁ ← parse_customsec m
        parse_opt_customsecs fuel m₁) s
    else .ok (m, s)

/-- `if (not is_->eof() && cur_byte == id) { act }` guard used for each
optional non-custom section of `parse_module`; when the guard fails the
result is unchanged. -/
def ifSection {α : Type} (id : Nat) (act : ParseM α) (dflt : α) : ParseM α := fun s =>
  if s.rest.isEmpty = false ∧ peekByte s = id then act s else .ok (dflt, s)

/-- The single forward pass of `Wasm_parser::parse_module` over the sections:
custom sections are consumed between any two, and the non-custom sections are
tried once each, in the fixed id order type (1), import (2), function (3),
table (4), memory (5), tag (13), global (6), export (7), start (8),
element (9), data-count (12), code (10), data (11). -/
def sectionPass (fuel : Nat) (m0 : Ast_module) : ParseM Ast_module := do
  let m ← parse_opt_customsecs fuel m0
  let ts ← ifSection 1 parse_typesec m.types
  let m := { m with types := ts }
  let m ← parse_opt_customsecs fuel m
  let is ← ifSection 2 parse_importsec m.imports
  let m := { m with imports := is }
  let m ← parse_opt_customsecs fuel m
  let _ ← ifSection 3 (do let _ ← parse_funcsec; pure ()) ()
  let m ← parse_opt_customsecs fuel m
  let _ ← ifSection 4 (do let _ ← parse_tablesec; pure ()) ()
  let m ← parse_opt_customsecs fuel m
  let _ ← ifSection 5 (do let _ ← parse_memsec; pure ()) ()
  let m ← parse_opt_customsecs fuel m
  let _ ← ifSection 13 (do let _ ← parse_tagsec; pure ()) ()
  let m ← parse_opt_customsecs fuel m
  let _ ← ifSection 6 (do let _ ← parse_globalsec fuel; pure ()) ()
  let m ← parse_opt_customsecs fuel m
  let _ ← ifSection 7 (do let _ ← parse_exportsec; pure ()) ()
  let m ← parse_opt_customsecs fuel m
  let _ ← ifSection 8 parse_startsec ()
  let m ← parse_opt_customsecs fuel m
  let _ ← ifSection 9 (do let _ ← parse_elemsec fuel; pure ()) ()
  let m ← parse_opt_customsecs fuel m
  let _ ← ifSection 12 (do let _ ← parse_datacountsec; pure ()) ()
  let m ← parse_opt_customsecs fuel m
  let _ ← ifSection 10 (do let _ ← parse_codesec fuel; pure ()) ()
  let m ← parse_opt_customsecs fuel m
  let _ ← ifSection 11 (do let _ ← parse_datasec fuel; pure ()) ()
  parse_opt_customsecs fuel m

/-- `Wasm_parser::parse_module` for a given fuel: magic, version, the section
pass, then the final end-of-input check which raises the trailing-bytes
error. -/
def parse_module_core (fuel : Nat) : ParseM Ast_module := do
  parse_magic
  parse_version
  let m ← sectionPass fuel ⟨none, [], []⟩
  fun s =>
    if s.rest.isEmpty then .ok (m, s)
    else .error (.err (.trailingBytes s.offset (peekByte s)))

/-- `parse_wasm`: prime the cursor on the byte stream and run
`parse_module`.  The fuel is chosen large enough that it is never the
limiting factor (every recursive step of the parser consumes input). -/
def parse_module (bytes : List Nat) : Except Fail (Ast_module × Pstate) :=
  parse_module_core (2 * bytes.length + 16) ⟨bytes, 0⟩

/-!
The text-format writer (`src/lib/text_format.cpp`).  The output stream is a
byte list; strings are byte lists (C++ `std::string`).  All primitives are
total except `tok_id`, which throws (the error carries the writer state at
the throw, i.e. the output already emitted). -/

structure Writer where
  out : List Nat
  indent_level : Int
  need_ws : Bool
  just_closed_sexp : Bool
deriving DecidableEq

def initWriter : Writer := ⟨[], 0, false, false⟩

inductive Werr where
  | emptyId
  | invalidIdChar (id : List Nat) (c : Nat)
deriving DecidableEq

def lex_maybe_ws (w : Writer) : Writer :=
  if w.need_ws || w.just_closed_sexp then
    { w with out := w.out ++ [32], need_ws := false, just_closed_sexp := false }
  else w

def tok_keyword (keyword : List Nat) (w : Writer) : Writer :=
  let w := lex_maybe_ws w
  { w with out := w.out ++ keyword, need_ws := true, just_closed_sexp := false }

def tok_left_paren (w : Writer) : Writer :=
  let w := lex_maybe_ws w
  { w with out := w.out ++ [40], indent_level := w.indent_level + 2,
           need_ws := false, just_closed_sexp := false }

def tok_right_paren (w : Writer) : Writer :=
  { w with out := w.out ++ [41], indent_level := w.indent_level - 2,
           need_ws := false, just_closed_sexp := true }

/-- `lex_nl`: a newline then `indent_level` spaces (the C++ loop `for (i = 0;
i != indent_level; ++i)`; `indent_level` is never negative on the paths the
writer takes, where the loop emits exactly `indent_level` spaces). -/
def lex_nl (w : Writer) : Writer :=
  { w with out := w.out ++ 10 :: List.replicate w.indent_level.toNat 32,
           need_ws := false, just_closed_sexp := false }

def lex_blockcomment (comment : List Nat) (w : Writer) : Writer :=
  let w := lex_maybe_ws w
  { w with out := w.out ++ [40, 59] ++ comment ++ [59, 41],
           need_ws := true, just_closed_sexp := true }

/-- Lowercase hexadecimal digit. -/
def hexDigit (n : Nat) : Nat := if n < 10 then 48 + n else 87 + n

/-- `absl::StreamFormat("\\%02x", c)` where `c` is the (signed) `char`
holding the byte `b`: `\` then the value of the char, in lowercase hex,
zero-padded to width 2; for bytes at and above `0x80` the char value is
negative (`b - 256`) and is rendered with a leading minus sign. -/
def escHex (b : Nat) : List Nat :=
  if b < 0x80 then
    [92, hexDigit (b / 16), hexDigit (b % 16)]
  else
    let m := 256 - b
    if m < 16 then [92, 45, hexDigit m]
    else [92, 45, hexDigit (m / 16), hexDigit (m % 16)]

/-- Escaping of one byte of a string by `tok_string`: named escapes for
tab/newline/cr/quote/apostrophe/backslash, printable ASCII verbatim, and the
hex form otherwise. -/
def escByte (b : Nat) : List Nat :=
  if b = 9 then [92, 116]
  else if b = 10 then [92, 110]
  else if b = 13 then [92, 114]
  else if b = 34 then [92, 34]
  else if b = 39 then [92, 39]
  else if b = 92 then [92, 92]
  else if 0x20 ≤ b ∧ b < 0x7F then [b]
  else escHex b

def tok_string (str : List Nat) (w : Writer) : Writer :=
  let w := lex_maybe_ws w
  { w with out := w.out ++ [34] ++ (str.map escByte).flatten ++ [34],
           need_ws := true, just_closed_sexp := false }

def tok_name (name : List Nat) (w : Writer) : Writer := tok_string name w

/-- The punctuation characters of `valid_puncts` in `tok_id` (the source
string contains, in order: bang, hash, dollar, percent, ampersand,
apostrophe, star, plus, minus, dot, slash, colon, less, equals, greater,
question, at, backslash, caret, underscore, backquote, pipe, tilde). -/
def valid_puncts : List Nat :=
  [0x21, 0x23, 0x24, 0x25, 0x26, 0x27, 0x2a, 0x2b, 0x2d, 0x2e, 0x2f, 0x3a,
   0x3c, 0x3d, 0x3e, 0x3f, 0x40, 0x5c, 0x5e, 0x5f, 0x60, 0x7c, 0x7e]

/-- One character is acceptable in an identifier: ASCII digit, upper or
lower letter, or one of `valid_puncts`. -/
def is_idchar (c : Nat) : Bool :=
  decide (0x30 ≤ c ∧ c ≤ 0x39) || decide (0x41 ≤ c ∧ c ≤ 0x5a) ||
  decide (0x61 ≤ c ∧ c ≤ 0x7a) || valid_puncts.contains c

/-- `tok_id`: reject the empty string, reject on the first character that is
not an idchar (both before anything is written), otherwise emit an optional
space then `$` followed by the identifier. -/
def tok_id (id : List Nat) (w : Writer) : Except (Werr × Writer) Writer :=
  if id.isEmpty then .error (.emptyId, w)
  else
    match id.find? (fun c => ! is_idchar c) with
    | some c => .error (.invalidIdChar id c, w)
    | none =>
      let w := lex_maybe_ws w
      .ok { w with out := w.out ++ [36] ++ id, need_ws := true, just_closed_sexp := false }

def write_valtype (v : Ast_valtype) (w : Writer) : Writer :=
  match v with
  | .k_numtype_i32 => tok_keyword (strBytes "i32") w
  | .k_numtype_i64 => tok_keyword (strBytes "i64") w
  | .k_numtype_f32 => tok_keyword (strBytes "f32") w
  | .k_numtype_f64 => tok_keyword (strBytes "f64") w
  | .k_vectype_v128 => tok_keyword (strBytes "v128") w
  | .k_reftype_funcref => tok_keyword (strBytes "funcref") w
  | .k_reftype_externref => tok_keyword (strBytes "externref") w

def write_valtypes (vs : List Ast_valtype) (w : Writer) : Writer :=
  vs.foldl (fun w v => write_valtype v w) w

def write_functype (functype : Ast_functype) (w : Writer) : Writer :=
  let w := tok_left_paren w
  let w := tok_keyword (strBytes "func") w
  let w :=
    if functype.params.isEmpty then w
    else
      let w := tok_left_paren w
      let w := tok_keyword (strBytes "param") w
      let w := write_valtypes functype.params w
      tok_right_paren w
  let w :=
    if functype.results.isEmpty then w
    else
      let w := tok_left_paren w
      let w := tok_keyword (strBytes "result") w
      let w := write_valtypes functype.results w
      tok_right_paren w
  tok_right_paren w

/-- Decimal digits (ASCII) of a natural number, structurally recursive on a
fuel argument so that it reduces definitionally (the fuel `n` always
dominates the number of digits of `n`). -/
def decDigitsAux : Nat → Nat → List Nat
  | 0, n => [48 + n % 10]
  | fuel + 1, n => if n < 10 then [48 + n] else decDigitsAux fuel (n / 10) ++ [48 + n % 10]

/-- Decimal digits (ASCII) of a natural number, as `absl::StrFormat("%d", n)`
produces for the non-negative `typeidx`. -/
def decDigits (n : Nat) : List Nat := decDigitsAux n n

def write_type (typeidx : Nat) (functype : Ast_functype) (w : Writer) : Writer :=
  let w := lex_nl w
  let w := tok_left_paren w
  let w := tok_keyword (strBytes "type") w
  let w := lex_blockcomment (decDigits typeidx) w
  let w := write_functype functype w
  tok_right_paren w

def write_import (import_ : Ast_import) (w : Writer) : Writer :=
  let w := lex_nl w
  let w := tok_left_paren w
  let w := tok_keyword (strBytes "import") w
  let w := tok_name import_.module w
  let w := tok_name import_.name w
  tok_right_paren w

def write_types (typeidx : Nat) (ts : List Ast_functype) (w : Writer) : Writer :=
  match ts with
  | [] => w
  | ft :: rest => write_types (typeidx + 1) rest (write_type typeidx ft w)

def write_imports (imps : List Ast_import) (w : Writer) : Writer :=
  imps.foldl (fun w imp => write_import imp w) w

/-- `Text_format_writer::write_module`: `(module`, the optional identifier,
the types (with positional indices), the imports, `)`.  The only failing step
is `tok_id` on an invalid module name; on failure the output already contains
the bytes emitted up to the throw. -/
def write_module (module : Ast_module) (w : Writer) : Except (Werr × Writer) Writer :=
  let w := tok_left_paren w
  let w := tok_keyword (strBytes "module") w
  match (match module.name with
         | none => .ok w
         | some nm => tok_id nm w : Except (Werr × Writer) Writer) with
  | .error e => .error e
  | .ok w =>
    let w := write_types 0 module.types w
    let w := write_imports module.imports w
    .ok (tok_right_paren w)

/-!
Theorems.
-/

/-- The module of the two-function-types writer scenario. -/
def moduleTwoTypes : Ast_module :=
  ⟨none,
   [⟨[.k_numtype_i32, .k_numtype_i64, .k_vectype_v128], [.k_numtype_f32, .k_numtype_f64]⟩,
    ⟨[], [.k_reftype_funcref, .k_reftype_externref]⟩],
   []⟩

/-- Claim C1: for the module with no name, no imports, and the two function
types `[i32 i64 v128] → [f32 f64]` and `[] → [funcref externref]`,
`write_module` produces exactly the text
`(module\n  (type (;0;) (func (param i32 i64 v128) (result f32 f64)))\n  (type (;1;) (func (result funcref externref))))`:
newlines are LF, each nesting level indents by two spaces, and no trailing
newline follows the outermost parenthesis. -/
theorem C1_write_module_two_types :
    (write_module moduleTwoTypes initWriter).map (fun w => w.out) =
      .ok (strBytes "(module\n  (type (;0;) (func (param i32 i64 v128) (result f32 f64)))\n  (type (;1;) (func (result funcref externref))))") := by
  rfl

/-- Claim C5: decoding the empty input fails; decoding the eight bytes
`00 61 73 6D 01 00 00 00` (magic plus version) succeeds with the module whose
name is `None` and whose types and imports are empty, and `write_module` on
that module emits exactly `(module)`. -/
theorem C5_empty_and_minimal_module :
    parse_module [] = .error (.err (.unexpectedEof 0)) ∧
    parse_module [0x00, 0x61, 0x73, 0x6D, 0x01, 0x00, 0x00, 0x00] =
      .ok (⟨none, [], []⟩, ⟨[], 8⟩) ∧
    (write_module ⟨none, [], []⟩ initWriter).map (fun w => w.out) =
      .ok (strBytes "(module)") := by
  refine ⟨rfl, rfl, rfl⟩

/-- Claim C8: `tok_id(s)` succeeds exactly when `s` is non-empty and every
character of `s` is an ASCII alphanumeric or one of the punctuation
characters of `valid_puncts` (bang, hash, dollar, percent, ampersand,
apostrophe, star, plus, minus, dot, slash, colon, less, equals, greater,
question, at, backslash, caret, underscore, backquote, pipe, tilde); on
success (from a fresh writer) it emits `$` followed by `s`; on failure it
throws before writing anything.  In particular the empty identifier and
`bad bad` are rejected and `$` yields `$$`. -/
theorem C8_tok_id :
    (∀ id w, (∃ w₁, tok_id id w = .ok w₁) ↔
        (id ≠ [] ∧ ∀ c ∈ id,
          (0x30 ≤ c ∧ c ≤ 0x39) ∨ (0x41 ≤ c ∧ c ≤ 0x5a) ∨ (0x61 ≤ c ∧ c ≤ 0x7a) ∨
          c ∈ valid_puncts)) ∧
    (∀ id w₁, tok_id id initWriter = .ok w₁ → w₁.out = 36 :: id) ∧
    (∀ id w e w₂, tok_id id w = .error (e, w₂) → w₂ = w) ∧
    tok_id [] initWriter = .error (.emptyId, initWriter) ∧
    tok_id (strBytes "bad bad") initWriter =
      .error (.invalidIdChar (strBytes "bad bad") 32, initWriter) ∧
    (tok_id (strBytes "$") initWriter).map (fun w => w.out) = .ok [36, 36] := by
  have hchar : ∀ c : Nat, is_idchar c = true ↔
      ((0x30 ≤ c ∧ c ≤ 0x39) ∨ (0x41 ≤ c ∧ c ≤ 0x5a) ∨ (0x61 ≤ c ∧ c ≤ 0x7a) ∨
        c ∈ valid_puncts) := by
    intro c
    simp only [is_idchar, Bool.or_eq_true, decide_eq_true_iff, List.elem_iff]
    tauto
  refine ⟨?_, ?_, ?_, rfl, rfl, rfl⟩
  · intro id w
    constructor
    · rintro ⟨w₁, h⟩
      unfold tok_id at h
      by_cases he : id.isEmpty
      · simp [he] at h
      · simp only [he, Bool.false_eq_true, if_false] at h
        rcases hf : id.find? (fun c => ! is_idchar c) with _ | c
        · refine ⟨by simpa [List.isEmpty_iff] using he, ?_⟩
          intro c hc
          have := List.find?_eq_none.mp hf c hc
          exact (hchar c).mp (by simpa using this)
        · rw [hf] at h
          exact absurd h (by simp)
    · rintro ⟨hne, hall⟩
      unfold tok_id
      have he : id.isEmpty = false := by simpa [List.isEmpty_iff] using hne
      have hf : id.find? (fun c => ! is_idchar c) = none := by
        refine List.find?_eq_none.mpr ?_
        intro c hc
        simpa using (hchar c).mpr (hall c hc)
      simp [he, hf]
  · intro id w₁ h
    unfold tok_id at h
    by_cases he : id.isEmpty
    · simp [he] at h
    · simp only [he, Bool.false_eq_true, if_false] at h
      rcases hf : id.find? (fun c => ! is_idchar c) with _ | c
      · rw [hf] at h
        have : w₁ = { lex_maybe_ws initWriter with
            out := (lex_maybe_ws initWriter).out ++ [36] ++ id,
            need_ws := true, just_closed_sexp := false } := by
          cases h
          rfl
        subst this
        simp [lex_maybe_ws, initWriter]
      · rw [hf] at h
        exact absurd h (by simp)
  · intro id w e w₂ h
    unfold tok_id at h
    by_cases he : id.isEmpty
    · simp only [he, if_true] at h
      cases h
      rfl
    · simp only [he, Bool.false_eq_true, if_false] at h
      rcases hf : id.find? (fun c => ! is_idchar c) with _ | c
      · rw [hf] at h
        exact absurd h (by simp)
      · rw [hf] at h
        cases h
        rfl

/-- Witness for C8: the single-letter identifier `a` is accepted (via the
acceptance direction of the iff, with its hypotheses discharged
concretely), and on the fresh writer it emits `$a`. -/
theorem C8_tok_id_witness :
    (∃ w₁, tok_id (strBytes "a") initWriter = .ok w₁) ∧
    (tok_id (strBytes "a") initWriter).map (fun w => w.out) = .ok [36, 97] := by
  refine ⟨(C8_tok_id.1 (strBytes "a") initWriter).mpr ⟨by decide, ?_⟩, rfl⟩
  intro c hc
  have : c = 97 := by
    simpa [strBytes] using hc
  subst this
  decide

/-- Inversion of a successful monadic bind of the decoder. -/
theorem bind_ok_inv {α β : Type} {x : ParseM α} {f : α → ParseM β} {s : Pstate}
    {r : β × Pstate} (h : (x >>= f) s = .ok r) :
    ∃ a s₁, x s = .ok (a, s₁) ∧ f a s₁ = .ok r := by
  simp only [ParseM.bind_apply] at h
  split at h
  · exact absurd h (by simp)
  next a s₁ hx => exact ⟨a, s₁, hx, h⟩

/-- Inversion of a successful `parse_section`: the id matched, the size was
read, the body succeeded, and the body consumed exactly the declared size. -/
theorem parse_section_ok_inv {α : Type} {id : Nat} {body : Nat → ParseM α}
    {s₀ s' : Pstate} {a : α} (h : parse_section id body s₀ = .ok (a, s')) :
    ∃ s₁ s₂ declared,
      match_byte id s₀ = .ok ((), s₁) ∧
      parse_u32 s₁ = .ok (declared, s₂) ∧
      body declared s₂ = .ok (a, s') ∧
      (s'.offset : Int) - s₂.offset = declared := by
  unfold parse_section at h
  simp only [ParseM.bind_apply, getOffset_apply] at h
  split at h
  · exact absurd h (by simp)
  next u s₁ hmb =>
  split at h
  · exact absurd h (by simp)
  next declared s₂ hu =>
  split at h
  · exact absurd h (by simp)
  next a' s₃ hb =>
  split at h
  next hsz =>
    simp only [ParseM.pure_apply] at h
    cases h
    obtain rfl : u = () := rfl
    exact ⟨s₁, s₂, declared, hmb, hu, hb, hsz⟩
  next hsz =>
    exact absurd h (by simp)

/-- Claim C7: `parse_section` succeeds only if the number of bytes its body
parser consumes (the offset after the body minus the offset recorded just
after the declared size) equals the declared `u32` size; whenever the two
differ it fails with the section-size-mismatch error, and when they agree no
such error is raised. -/
theorem C7_parse_section_size :
    (∀ (α : Type) (id : Nat) (body : Nat → ParseM α) (s₀ s₁ s₂ s₃ : Pstate)
        (declared : Nat) (a : α),
      match_byte id s₀ = .ok ((), s₁) →
      parse_u32 s₁ = .ok (declared, s₂) →
      body declared s₂ = .ok (a, s₃) →
      ((((s₃.offset : Int) - s₂.offset = declared) →
          parse_section id body s₀ = .ok (a, s₃)) ∧
       (((s₃.offset : Int) - s₂.offset ≠ declared) →
          parse_section id body s₀ =
            .error (.err (.sectionSizeMismatch id s₂.offset s₃.offset declared
              ((s₃.offset : Int) - s₂.offset)))))) ∧
    (∀ (α : Type) (id : Nat) (body : Nat → ParseM α) (s₀ s' : Pstate) (a : α),
      parse_section id body s₀ = .ok (a, s') →
      ∃ s₁ s₂ declared,
        match_byte id s₀ = .ok ((), s₁) ∧
        parse_u32 s₁ = .ok (declared, s₂) ∧
        body declared s₂ = .ok (a, s') ∧
        (s'.offset : Int) - s₂.offset = declared) := by
  constructor
  · intro α id body s₀ s₁ s₂ s₃ declared a h₁ h₂ h₃
    constructor
    · intro hsz
      unfold parse_section
      simp [h₁, h₂, h₃, hsz]
    · intro hsz
      unfold parse_section
      simp [h₁, h₂, h₃, hsz]
  · intro α id body s₀ s' a h
    exact parse_section_ok_inv h

/-- Witness for C7: a section with id 1, declared size 1 and a one-byte body
is accepted with the body result, and the same input with declared size 2
is rejected with the size-mismatch error. -/
theorem C7_parse_section_size_witness :
    parse_section 1 (fun _ => parse_byte) ⟨[1, 1, 9, 9], 0⟩ = .ok (9, ⟨[9], 3⟩) ∧
    parse_section 1 (fun _ => parse_byte) ⟨[1, 2, 9, 9], 0⟩ =
      .error (.err (.sectionSizeMismatch 1 2 3 2 1)) := by
  constructor
  · exact (C7_parse_section_size.1 Nat 1 (fun _ => parse_byte) ⟨[1, 1, 9, 9], 0⟩
      ⟨[1, 9, 9], 1⟩ ⟨[9, 9], 2⟩ ⟨[9], 3⟩ 1 9 rfl rfl rfl).1 (by decide)
  · exact (C7_parse_section_size.1 Nat 1 (fun _ => parse_byte) ⟨[1, 2, 9, 9], 0⟩
      ⟨[2, 9, 9], 1⟩ ⟨[9, 9], 2⟩ ⟨[9], 3⟩ 2 9 rfl rfl rfl).2 (by decide)

theorem vecLoop_length {α : Type} (p : Nat → ParseM α) :
    ∀ (k i : Nat) (s : Pstate) (l : List α) (s' : Pstate),
      vecLoop p k i s = .ok (l, s') → l.length = k := by
  intro k
  induction k with
  | zero =>
    intro i s l s' h
    simp only [vecLoop, ParseM.pure_apply] at h
    cases h
    rfl
  | succ k ih =>
    intro i s l s' h
    simp only [vecLoop, ParseM.bind_apply] at h
    split at h
    · exact absurd h (by simp)
    next a s₁ hp =>
    split at h
    · exact absurd h (by simp)
    next r s₂ hl =>
    simp only [ParseM.pure_apply] at h
    cases h
    simp [ih (i + 1) s₁ r s' hl]

theorem nameLoop_spec :
    ∀ (k : Nat) (s : Pstate) (nm : List Nat) (s' : Pstate),
      nameLoop k s = .ok (nm, s') →
      nm.length = k ∧ s'.offset = s.offset + k ∧ s'.rest = s.rest.drop k := by
  intro k
  induction k with
  | zero =>
    intro s nm s' h
    simp only [nameLoop, ParseM.pure_apply] at h
    cases h
    exact ⟨rfl, rfl, rfl⟩
  | succ k ih =>
    intro s nm s' h
    simp only [nameLoop, ParseM.bind_apply] at h
    split at h
    · exact absurd h (by simp)
    next b s₁ hp =>
    split at h
    · exact absurd h (by simp)
    next r s₂ hl =>
    simp only [ParseM.pure_apply] at h
    cases h
    have hb : ∃ t, s.rest = b :: t ∧ s₁ = ⟨t, s.offset + 1⟩ := by
      unfold parse_byte at hp
      rcases hs : s.rest with _ | ⟨b', t⟩ <;> rw [hs] at hp
      · exact absurd hp (by simp)
      · cases hp
        exact ⟨t, rfl, rfl⟩
    obtain ⟨t, hs, rfl⟩ := hb
    obtain ⟨h1, h2, h3⟩ := ih ⟨t, s.offset + 1⟩ r s' hl
    refine ⟨by simp [h1], by simp [h2]; omega, by simp [h3, hs]⟩

/-- Claim C9: `parse_vec` and `parse_name` first decode a `u32` count `n` and
then read exactly `n` elements (respectively `n` bytes) when
`n < 2^32 - 1`; when the decoded count equals `0xFFFFFFFF` they abort the
process via a `CHECK` failure, an outcome that is neither a success nor one
of the decoder's errors, so such a decode never terminates normally. -/
theorem C9_vec_name_check_abort :
    (∀ (α : Type) (p : Nat → ParseM α) (s : Pstate) (n : Nat) (s₁ : Pstate),
      parse_u32 s = .ok (n, s₁) → n ≠ 0xFFFFFFFF →
      parse_vec p s = vecLoop p n 0 s₁ ∧
      ∀ l s₂, parse_vec p s = .ok (l, s₂) → l.length = n) ∧
    (∀ (α : Type) (p : Nat → ParseM α) (s s₁ : Pstate),
      parse_u32 s = .ok (0xFFFFFFFF, s₁) → parse_vec p s = .error .checkAbort) ∧
    (∀ (s : Pstate) (n : Nat) (s₁ : Pstate),
      parse_u32 s = .ok (n, s₁) → n ≠ 0xFFFFFFFF →
      ∀ nm s₂, parse_name s = .ok (nm, s₂) →
        nm.length = n ∧ s₂.offset = s₁.offset + n ∧ s₂.rest = s₁.rest.drop n) ∧
    (∀ (s s₁ : Pstate),
      parse_u32 s = .ok (0xFFFFFFFF, s₁) → parse_name s = .error .checkAbort) ∧
    (∀ e : Err, Fail.checkAbort ≠ .err e) ∧
    (∀ (α : Type) (x : α) (st : Pstate),
      (Except.error .checkAbort : Except Fail (α × Pstate)) ≠ .ok (x, st)) := by
  refine ⟨?_, ?_, ?_, ?_, ?_, ?_⟩
  · intro α p s n s₁ hu hne
    have hv : parse_vec p s = vecLoop p n 0 s₁ := by
      unfold parse_vec
      simp [hu, hne]
    exact ⟨hv, fun l s₂ h => vecLoop_length p n 0 s₁ l s₂ (hv ▸ h)⟩
  · intro α p s s₁ hu
    unfold parse_vec
    simp [hu]
  · intro s n s₁ hu hne nm s₂ h
    unfold parse_name at h
    simp only [ParseM.bind_apply, hu] at h
    rw [if_neg hne] at h
    exact nameLoop_spec n s₁ nm s₂ h
  · intro s s₁ hu
    unfold parse_name
    simp [hu]
  · exact fun e h => by cases h
  · exact fun α x st h => by cases h

/-- Witness for C9: a name whose count field decodes to `0xFFFFFFFF` aborts,
and a three-byte name is read in full. -/
theorem C9_vec_name_check_abort_witness :
    parse_name ⟨[0xFF, 0xFF, 0xFF, 0xFF, 0x0F, 1, 2, 3], 0⟩ = .error .checkAbort ∧
    (∀ nm s₂, parse_name ⟨[3, 7, 8, 9, 4], 0⟩ = .ok (nm, s₂) →
      nm.length = 3 ∧ s₂.offset = 1 + 3 ∧ s₂.rest = [7, 8, 9, 4].drop 3) := by
  constructor
  · exact C9_vec_name_check_abort.2.2.2.1 ⟨[0xFF, 0xFF, 0xFF, 0xFF, 0x0F, 1, 2, 3], 0⟩
      ⟨[1, 2, 3], 5⟩ rfl
  · exact C9_vec_name_check_abort.2.2.1 ⟨[3, 7, 8, 9, 4], 0⟩ 3 ⟨[7, 8, 9, 4], 1⟩ rfl
      (by decide)

/-- Claim C10: `parse_module` performs a single forward pass (`sectionPass`,
which by its definition tries each non-custom section at most once, in the
fixed id order type, import, function, table, memory, tag, global, export,
start, element, data-count, code, data, with custom sections consumed
between any two).  Consequently a decode never succeeds with unconsumed
bytes; whenever the pass completes with bytes remaining — as happens for a
duplicated non-custom section or one whose id has already been passed, which
no remaining guard accepts — the decode fails at the final end-of-input
check with the trailing-bytes error; and concretely a module with two type
sections fails with that error at the start of the duplicate. -/
theorem C10_single_pass_trailing_bytes :
    (∀ (fuel : Nat) (s : Pstate) (m : Ast_module) (s' : Pstate),
      parse_module_core fuel s = .ok (m, s') → s'.rest = []) ∧
    (∀ (fuel : Nat) (s s₁ s₂ s₃ : Pstate) (m : Ast_module),
      parse_magic s = .ok ((), s₁) →
      parse_version s₁ = .ok ((), s₂) →
      sectionPass fuel ⟨none, [], []⟩ s₂ = .ok (m, s₃) →
      s₃.rest ≠ [] →
      parse_module_core fuel s =
        .error (.err (.trailingBytes s₃.offset (peekByte s₃)))) ∧
    parse_module ([0x00, 0x61, 0x73, 0x6D, 0x01, 0x00, 0x00, 0x00] ++
        [1, 4, 1, 0x60, 0, 0] ++ [1, 4, 1, 0x60, 0, 0]) =
      .error (.err (.trailingBytes 14 1)) := by
  refine ⟨?_, ?_, rfl⟩
  · intro fuel s m s' h
    unfold parse_module_core at h
    simp only [ParseM.bind_apply] at h
    split at h
    · exact absurd h (by simp)
    next u s₁ hm =>
    split at h
    · exact absurd h (by simp)
    next v s₂ hv =>
    split at h
    · exact absurd h (by simp)
    next m₁ s₃ hp =>
    by_cases he : s₃.rest.isEmpty
    · rw [if_pos he] at h
      cases h
      exact List.isEmpty_iff.mp he
    · rw [if_neg he] at h
      exact absurd h (by simp)
  · intro fuel s s₁ s₂ s₃ m h₁ h₂ h₃ hne
    unfold parse_module_core
    simp only [ParseM.bind_apply, h₁, h₂, h₃]
    rw [if_neg (by simpa [List.isEmpty_iff] using hne)]

/-- Witness for C10: the duplicated-type-section input instantiates the
trailing-bytes part of the theorem with every hypothesis discharged
concretely. -/
theorem C10_single_pass_trailing_bytes_witness :
    parse_module_core 64 ⟨[0x00, 0x61, 0x73, 0x6D, 0x01, 0x00, 0x00, 0x00,
        1, 4, 1, 0x60, 0, 0, 1, 4, 1, 0x60, 0, 0], 0⟩ =
      .error (.err (.trailingBytes 14 1)) := by
  exact C10_single_pass_trailing_bytes.2.1 64
    ⟨[0x00, 0x61, 0x73, 0x6D, 0x01, 0x00, 0x00, 0x00,
      1, 4, 1, 0x60, 0, 0, 1, 4, 1, 0x60, 0, 0], 0⟩
    ⟨[0x01, 0x00, 0x00, 0x00, 1, 4, 1, 0x60, 0, 0, 1, 4, 1, 0x60, 0, 0], 4⟩
    ⟨[1, 4, 1, 0x60, 0, 0, 1, 4, 1, 0x60, 0, 0], 8⟩
    ⟨[1, 4, 1, 0x60, 0, 0], 14⟩
    ⟨none, [⟨[], []⟩], []⟩
    rfl rfl rfl (by simp)

/-- `new` arises from `old` either unchanged or as the result of a
successful module-name subsection parse. -/
def NameFrom (old new : Option (List Nat)) : Prop :=
  new = old ∨ ∃ s v s', parse_modulenamesubsec s = .ok (v, s') ∧ new = some v

theorem nameFrom_trans {a b c : Option (List Nat)}
    (h₁ : NameFrom a b) (h₂ : NameFrom b c) : NameFrom a c := by
  rcases h₂ with rfl | hx
  · exact h₁
  · exact Or.inr hx

theorem nameSubsecsLoop_inv :
    ∀ (fuel endOff : Nat) (m : Ast_module) (s : Pstate) (m₁ : Ast_module) (s₁ : Pstate),
      nameSubsecsLoop fuel endOff m s = .ok (m₁, s₁) →
      m₁.types = m.types ∧ m₁.imports = m.imports ∧ NameFrom m.name m₁.name := by
  intro fuel
  induction fuel with
  | zero =>
    intro endOff m s m₁ s₁ h
    exact absurd h (by simp [nameSubsecsLoop])
  | succ fuel ih =>
    intro endOff m s m₁ s₁ h
    unfold nameSubsecsLoop at h
    by_cases hoff : s.offset < endOff
    · rw [if_pos hoff] at h
      obtain ⟨c, s', hc, h⟩ := bind_ok_inv h
      have hc2 : peekByte s = c ∧ s = s' := by
        simpa only [peekCur_apply, Except.ok.injEq, Prod.mk.injEq] using hc
      obtain ⟨rfl, rfl⟩ := hc2
      by_cases h0 : peekByte s = 0
      · rw [if_pos h0] at h
        obtain ⟨nm, s₂, hmn, h⟩ := bind_ok_inv h
        obtain ⟨ht, hi, hn⟩ := ih endOff { m with name := some nm } s₂ m₁ s₁ h
        exact ⟨ht, hi,
          nameFrom_trans (Or.inr ⟨s, nm, s₂, hmn, rfl⟩) hn⟩
      · rw [if_neg h0] at h
        by_cases h1 : peekByte s = 1
        · rw [if_pos h1] at h
          obtain ⟨u, s₂, _, h⟩ := bind_ok_inv h
          exact ih endOff m s₂ m₁ s₁ h
        · rw [if_neg h1] at h
          by_cases h2 : peekByte s = 2
          · rw [if_pos h2] at h
            obtain ⟨u, s₂, _, h⟩ := bind_ok_inv h
            exact ih endOff m s₂ m₁ s₁ h
          · rw [if_neg h2] at h
            by_cases h7 : peekByte s = 7
            · rw [if_pos h7] at h
              obtain ⟨u, s₂, _, h⟩ := bind_ok_inv h
              exact ih endOff m s₂ m₁ s₁ h
            · rw [if_neg h7] at h
              by_cases h9 : peekByte s = 9
              · rw [if_pos h9] at h
                obtain ⟨u, s₂, _, h⟩ := bind_ok_inv h
                exact ih endOff m s₂ m₁ s₁ h
              · rw [if_neg h9] at h
                obtain ⟨u, s₂, _, h⟩ := bind_ok_inv h
                exact ih endOff m s₂ m₁ s₁ h
    · rw [if_neg hoff] at h
      cases h
      exact ⟨rfl, rfl, Or.inl rfl⟩

theorem parse_customsec_inv :
    ∀ (m : Ast_module) (s : Pstate) (m₁ : Ast_module) (s₁ : Pstate),
      parse_customsec m s = .ok (m₁, s₁) →
      m₁.types = m.types ∧ m₁.imports = m.imports ∧ NameFrom m.name m₁.name := by
  intro m s m₁ s₁ h
  unfold parse_customsec at h
  obtain ⟨sA, sB, size, _, _, hbody, _⟩ := parse_section_ok_inv h
  simp only [] at hbody
  obtain ⟨nm, sC, hnm, hbody⟩ := bind_ok_inv hbody
  by_cases h1 : nm = strBytes "name"
  · rw [if_pos h1] at hbody
    exact nameSubsecsLoop_inv (size + 1) (sB.offset + size) m sC m₁ s₁ hbody
  · rw [if_neg h1] at hbody
    by_cases h2 : nm = strBytes "sourceMappingURL"
    · rw [if_pos h2] at hbody
      obtain ⟨url, sD, _, hbody⟩ := bind_ok_inv hbody
      obtain ⟨off, sE, _, hbody⟩ := bind_ok_inv hbody
      by_cases hoff : off ≠ sB.offset + size
      · rw [if_pos hoff] at hbody
        obtain ⟨u, sF, _, hbody⟩ := bind_ok_inv hbody
        simp only [ParseM.pure_apply] at hbody
        cases hbody
        exact ⟨rfl, rfl, Or.inl rfl⟩
      · rw [if_neg hoff] at hbody
        obtain ⟨u, sF, _, hbody⟩ := bind_ok_inv hbody
        simp only [ParseM.pure_apply] at hbody
        cases hbody
        exact ⟨rfl, rfl, Or.inl rfl⟩
    · rw [if_neg h2] at hbody
      obtain ⟨off, sD, _, hbody⟩ := bind_ok_inv hbody
      obtain ⟨u, sE, _, hbody⟩ := bind_ok_inv hbody
      simp only [ParseM.pure_apply] at hbody
      cases hbody
      exact ⟨rfl, rfl, Or.inl rfl⟩

theorem parse_opt_customsecs_inv :
    ∀ (fuel : Nat) (m : Ast_module) (s : Pstate) (m₁ : Ast_module) (s₁ : Pstate),
      parse_opt_customsecs fuel m s = .ok (m₁, s₁) →
      m₁.types = m.types ∧ m₁.imports = m.imports ∧ NameFrom m.name m₁.name := by
  intro fuel
  induction fuel with
  | zero =>
    intro m s m₁ s₁ h
    exact absurd h (by simp [parse_opt_customsecs])
  | succ fuel ih =>
    intro m s m₁ s₁ h
    unfold parse_opt_customsecs at h
    split at h
    · obtain ⟨m₂, s₂, hcs, h⟩ := bind_ok_inv h
      obtain ⟨ht₂, hi₂, hn₂⟩ := parse_customsec_inv m s m₂ s₂ hcs
      obtain ⟨ht₁, hi₁, hn₁⟩ := ih m₂ s₂ m₁ s₁ h
      exact ⟨ht₁.trans ht₂, hi₁.trans hi₂, nameFrom_trans hn₂ hn₁⟩
    · cases h
      exact ⟨rfl, rfl, Or.inl rfl⟩

theorem sectionPass_name_inv :
    ∀ (fuel : Nat) (m0 : Ast_module) (s : Pstate) (m : Ast_module) (s₃ : Pstate),
      sectionPass fuel m0 s = .ok (m, s₃) → NameFrom m0.name m.name := by
  intro fuel m0 s m s₃ h
  unfold sectionPass at h
  obtain ⟨m1, t1, h1, h⟩ := bind_ok_inv h
  obtain ⟨ts, t2, _, h⟩ := bind_ok_inv h
  obtain ⟨m2, t3, h2, h⟩ := bind_ok_inv h
  obtain ⟨is, t4, _, h⟩ := bind_ok_inv h
  obtain ⟨m3, t5, h3, h⟩ := bind_ok_inv h
  obtain ⟨u1, t6, _, h⟩ := bind_ok_inv h
  obtain ⟨m4, t7, h4, h⟩ := bind_ok_inv h
  obtain ⟨u2, t8, _, h⟩ := bind_ok_inv h
  obtain ⟨m5, t9, h5, h⟩ := bind_ok_inv h
  obtain ⟨u3, t10, _, h⟩ := bind_ok_inv h
  obtain ⟨m6, t11, h6, h⟩ := bind_ok_inv h
  obtain ⟨u4, t12, _, h⟩ := bind_ok_inv h
  obtain ⟨m7, t13, h7, h⟩ := bind_ok_inv h
  obtain ⟨u5, t14, _, h⟩ := bind_ok_inv h
  obtain ⟨m8, t15, h8, h⟩ := bind_ok_inv h
  obtain ⟨u6, t16, _, h⟩ := bind_ok_inv h
  obtain ⟨m9, t17, h9, h⟩ := bind_ok_inv h
  obtain ⟨u7, t18, _, h⟩ := bind_ok_inv h
  obtain ⟨m10, t19, h10, h⟩ := bind_ok_inv h
  obtain ⟨u8, t20, _, h⟩ := bind_ok_inv h
  obtain ⟨m11, t21, h11, h⟩ := bind_ok_inv h
  obtain ⟨u9, t22, _, h⟩ := bind_ok_inv h
  obtain ⟨m12, t23, h12, h⟩ := bind_ok_inv h
  obtain ⟨u10, t24, _, h⟩ := bind_ok_inv h
  obtain ⟨m13, t25, h13, h⟩ := bind_ok_inv h
  obtain ⟨u11, t26, _, h⟩ := bind_ok_inv h
  have n1 := (parse_opt_customsecs_inv fuel m0 s m1 t1 h1).2.2
  have n2 := (parse_opt_customsecs_inv fuel _ t2 m2 t3 h2).2.2
  have n3 := (parse_opt_customsecs_inv fuel _ t4 m3 t5 h3).2.2
  have n4 := (parse_opt_customsecs_inv fuel _ t6 m4 t7 h4).2.2
  have n5 := (parse_opt_customsecs_inv fuel _ t8 m5 t9 h5).2.2
  have n6 := (parse_opt_customsecs_inv fuel _ t10 m6 t11 h6).2.2
  have n7 := (parse_opt_customsecs_inv fuel _ t12 m7 t13 h7).2.2
  have n8 := (parse_opt_customsecs_inv fuel _ t14 m8 t15 h8).2.2
  have n9 := (parse_opt_customsecs_inv fuel _ t16 m9 t17 h9).2.2
  have n10 := (parse_opt_customsecs_inv fuel _ t18 m10 t19 h10).2.2
  have n11 := (parse_opt_customsecs_inv fuel _ t20 m11 t21 h11).2.2
  have n12 := (parse_opt_customsecs_inv fuel _ t22 m12 t23 h12).2.2
  have n13 := (parse_opt_customsecs_inv fuel _ t24 m13 t25 h13).2.2
  have n14 := (parse_opt_customsecs_inv fuel _ t26 m s₃ h).2.2
  exact nameFrom_trans n1 (nameFrom_trans n2 (nameFrom_trans n3 (nameFrom_trans n4
    (nameFrom_trans n5 (nameFrom_trans n6 (nameFrom_trans n7 (nameFrom_trans n8
      (nameFrom_trans n9 (nameFrom_trans n10 (nameFrom_trans n11 (nameFrom_trans n12
        (nameFrom_trans n13 n14))))))))))))

/-- Claim C6: a decoded module's name is set only by processing a
module-name subsection (id 0) of a "name" custom section, and is otherwise
left `None`: whenever a decode succeeds, the name either is `None` or is the
string returned by a successful `parse_modulenamesubsec`; a custom section
can change nothing of the module but its name, and that only through a
module-name subsection.  Concretely, decoding
`00 61 73 6D 01 00 00 00 00 0D 04 "name" 00 06 05 "hello"` yields the module
named `hello` with no types and no imports, and `write_module` on it emits
exactly `(module $hello)`. -/
theorem C6_module_name_provenance :
    (∀ (bytes : List Nat) (m : Ast_module) (st : Pstate),
      parse_module bytes = .ok (m, st) →
      m.name = none ∨
        ∃ s v s', parse_modulenamesubsec s = .ok (v, s') ∧ m.name = some v) ∧
    (∀ (m : Ast_module) (s : Pstate) (m₁ : Ast_module) (s₁ : Pstate),
      parse_customsec m s = .ok (m₁, s₁) →
      m₁.types = m.types ∧ m₁.imports = m.imports ∧
        (m₁.name = m.name ∨
          ∃ s' v s'', parse_modulenamesubsec s' = .ok (v, s'') ∧ m₁.name = some v)) ∧
    parse_module [0x00, 0x61, 0x73, 0x6D, 0x01, 0x00, 0x00, 0x00,
        0x00, 0x0D, 0x04, 0x6E, 0x61, 0x6D, 0x65, 0x00, 0x06, 0x05,
        0x68, 0x65, 0x6C, 0x6C, 0x6F] =
      .ok (⟨some (strBytes "hello"), [], []⟩, ⟨[], 23⟩) ∧
    (write_module ⟨some (strBytes "hello"), [], []⟩ initWriter).map (fun w => w.out) =
      .ok (strBytes "(module $hello)") := by
  refine ⟨?_, ?_, rfl, rfl⟩
  · intro bytes m st h
    unfold parse_module parse_module_core at h
    obtain ⟨u1, s1, _, h⟩ := bind_ok_inv h
    obtain ⟨u2, s2, _, h⟩ := bind_ok_inv h
    obtain ⟨mm, s3, hsp, h⟩ := bind_ok_inv h
    have hn := sectionPass_name_inv _ _ _ _ _ hsp
    split at h
    · cases h
      exact hn
    · exact absurd h (by simp)
  · intro m s m₁ s₁ h
    exact parse_customsec_inv m s m₁ s₁ h

/-- Witness for C6: the name-provenance implication applied to the concrete
"hello" input, with its hypothesis discharged by evaluation. -/
theorem C6_module_name_provenance_witness :
    (⟨some (strBytes "hello"), [], []⟩ : Ast_module).name = none ∨
      ∃ s v s', parse_modulenamesubsec s = .ok (v, s') ∧
        (⟨some (strBytes "hello"), [], []⟩ : Ast_module).name = some v := by
  exact C6_module_name_provenance.1
    [0x00, 0x61, 0x73, 0x6D, 0x01, 0x00, 0x00, 0x00,
     0x00, 0x0D, 0x04, 0x6E, 0x61, 0x6D, 0x65, 0x00, 0x06, 0x05,
     0x68, 0x65, 0x6C, 0x6C, 0x6F]
    ⟨some (strBytes "hello"), [], []⟩ ⟨[], 23⟩ rfl

/-- A byte below `0x80` has its continuation bit clear. -/
theorem and128_eq_zero {t : Nat} (h : t < 0x80) : t &&& 0x80 = 0 := by
  have h1 : (0x80 : Nat) = 2 ^ 7 := by norm_num
  rw [h1, Nat.and_two_pow, Nat.testBit_lt_two_pow (by simpa using h)]
  rfl

/-- A byte in `[0x80, 0x100)` has its continuation bit set. -/
theorem and128_ne_zero {c : Nat} (h : 0x80 ≤ c) (h2 : c < 0x100) : c &&& 0x80 ≠ 0 := by
  have h1 : (0x80 : Nat) = 2 ^ 7 := by norm_num
  rw [h1, Nat.and_two_pow]
  have ht : c.testBit 7 = true := by
    rw [Nat.testBit_to_div_mod]
    simp only [decide_eq_true_eq]
    omega
  simp [ht]

/-- The `uN` loop rejects when the trailing byte arrives with fewer than 8
bits of budget left and sets bits beyond that budget; this includes the case
in which the budget was already exhausted by the continuation bytes. -/
theorem uN_loop_reject_trailing :
    ∀ (cs : List Nat) (t : Nat) (rest : List Nat) (N errOff off Nnow shift acc : Nat),
      (∀ c ∈ cs, 0x80 ≤ c ∧ c < 0x100) → t < 0x80 →
      Nnow - 7 * cs.length < 8 → 2 ^ (Nnow - 7 * cs.length) ≤ t →
      ∃ mid, uN_loop N errOff (cs ++ t :: rest) off Nnow shift acc =
        .error (.err (.invalidLeb false N errOff mid)) := by
  intro cs
  induction cs with
  | nil =>
    intro t rest N errOff off Nnow shift acc _ ht hbud hval
    refine ⟨false, ?_⟩
    simp only [List.nil_append, uN_loop]
    rw [if_pos (and128_eq_zero ht)]
    rw [if_pos (⟨by simpa using hbud, by simpa using hval⟩ : Nnow < 8 ∧ 2 ^ Nnow ≤ t)]
  | cons c cs ih =>
    intro t rest N errOff off Nnow shift acc hcs ht hbud hval
    obtain ⟨hc1, hc2⟩ := hcs c (List.mem_cons_self c cs)
    simp only [List.cons_append, uN_loop]
    rw [if_neg (and128_ne_zero hc1 hc2)]
    by_cases h7 : Nnow ≤ 7
    · exact ⟨true, by rw [if_pos h7]⟩
    · rw [if_neg h7]
      exact ih t rest N errOff (off + 1) (Nnow - 7) (shift + 7) _
        (fun x hx => hcs x (List.mem_cons_of_mem c hx)) ht
        (by simp only [List.length_cons] at hbud ⊢; omega)
        (by
          have : Nnow - 7 - 7 * cs.length = Nnow - 7 * (cs.length + 1) := by omega
          rw [this]
          simpa using hval)

/-- The `uN` loop rejects when a continuation byte arrives with at most 7
bits of budget left (again including the case in which the budget was
already exhausted earlier). -/
theorem uN_loop_reject_cont :
    ∀ (cs : List Nat) (c : Nat) (rest : List Nat) (N errOff off Nnow shift acc : Nat),
      (∀ x ∈ cs, 0x80 ≤ x ∧ x < 0x100) → 0x80 ≤ c → c < 0x100 →
      Nnow - 7 * cs.length ≤ 7 →
      ∃ mid, uN_loop N errOff (cs ++ c :: rest) off Nnow shift acc =
        .error (.err (.invalidLeb false N errOff mid)) := by
  intro cs
  induction cs with
  | nil =>
    intro c rest N errOff off Nnow shift acc _ hc1 hc2 hbud
    refine ⟨true, ?_⟩
    simp only [List.nil_append, uN_loop]
    rw [if_neg (and128_ne_zero hc1 hc2), if_pos (by simpa using hbud)]
  | cons c' cs ih =>
    intro c rest N errOff off Nnow shift acc hcs hc1 hc2 hbud
    obtain ⟨hd1, hd2⟩ := hcs c' (List.mem_cons_self c' cs)
    simp only [List.cons_append, uN_loop]
    rw [if_neg (and128_ne_zero hd1 hd2)]
    by_cases h7 : Nnow ≤ 7
    · exact ⟨true, by rw [if_pos h7]⟩
    · rw [if_neg h7]
      exact ih c rest N errOff (off + 1) (Nnow - 7) (shift + 7) _
        (fun x hx => hcs x (List.mem_cons_of_mem c' hx)) hc1 hc2
        (by simp only [List.length_cons] at hbud ⊢; omega)

/-- Claim C3: `parse_u32` on `FF FF FF FF 0F` yields `0xFFFFFFFF`; on
`FF FF FF FF 1F` it fails (the trailing byte sets bits beyond the 32-bit
budget); on `FF FF FF FF FF 00` it fails (a continuation byte arrives when
at most 7 bits of budget remain).  Generally, for each `N ∈ {8, 16, 32}`,
the `uN` decoder rejects any encoding whose trailing (high-bit-clear) byte
is at least `2^(remaining budget)` when fewer than 8 bits of budget remain,
and rejects any encoding containing a continuation (high-bit-set) byte once
the remaining bit budget is at most 7; the `parse_u8/u16/u32` wrappers
propagate these rejections unchanged. -/
theorem C3_uN_rejection :
    parse_u32 ⟨[0xFF, 0xFF, 0xFF, 0xFF, 0x0F], 0⟩ = .ok (0xFFFFFFFF, ⟨[], 5⟩) ∧
    parse_u32 ⟨[0xFF, 0xFF, 0xFF, 0xFF, 0x1F], 0⟩ =
      .error (.err (.invalidLeb false 32 0 false)) ∧
    parse_u32 ⟨[0xFF, 0xFF, 0xFF, 0xFF, 0xFF, 0x00], 0⟩ =
      .error (.err (.invalidLeb false 32 0 true)) ∧
    (∀ (N : Nat) (s : Pstate) (cs : List Nat) (t : Nat) (rest : List Nat),
      (N = 8 ∨ N = 16 ∨ N = 32) →
      s.rest = cs ++ t :: rest →
      (∀ c ∈ cs, 0x80 ≤ c ∧ c < 0x100) → t < 0x80 →
      N - 7 * cs.length < 8 → 2 ^ (N - 7 * cs.length) ≤ t →
      ∃ mid, internal_parse_uN N s = .error (.err (.invalidLeb false N s.offset mid))) ∧
    (∀ (N : Nat) (s : Pstate) (cs : List Nat) (c : Nat) (rest : List Nat),
      (N = 8 ∨ N = 16 ∨ N = 32) →
      s.rest = cs ++ c :: rest →
      (∀ x ∈ cs, 0x80 ≤ x ∧ x < 0x100) → 0x80 ≤ c → c < 0x100 →
      N - 7 * cs.length ≤ 7 →
      ∃ mid, internal_parse_uN N s = .error (.err (.invalidLeb false N s.offset mid))) ∧
    (∀ (s : Pstate) (e : Fail),
      (internal_parse_uN 8 s = .error e → parse_u8 s = .error e) ∧
      (internal_parse_uN 16 s = .error e → parse_u16 s = .error e) ∧
      (internal_parse_uN 32 s = .error e → parse_u32 s = .error e)) := by
  refine ⟨rfl, rfl, rfl, ?_, ?_, ?_⟩
  · intro N s cs t rest _ hsplit hcs ht hbud hval
    unfold internal_parse_uN
    rw [hsplit]
    exact uN_loop_reject_trailing cs t rest N s.offset s.offset N 0 0 hcs ht hbud hval
  · intro N s cs c rest _ hsplit hcs hc1 hc2 hbud
    unfold internal_parse_uN
    rw [hsplit]
    exact uN_loop_reject_cont cs c rest N s.offset s.offset N 0 0 hcs hc1 hc2 hbud
  · intro s e
    refine ⟨?_, ?_, ?_⟩ <;> intro h <;>
      simp [parse_u8, parse_u16, parse_u32, ParseM.map_apply, h]

/-- Witness for C3: the general rejections applied to the `u8` encodings
`83 10` (trailing byte beyond the 1 remaining bit of budget) and
`80 88 00` (continuation byte with 1 bit of budget), as exercised by the
test suite. -/
theorem C3_uN_rejection_witness :
    (∃ mid, internal_parse_uN 8 ⟨[0x83, 0x10], 0⟩ =
      .error (.err (.invalidLeb false 8 0 mid))) ∧
    (∃ mid, internal_parse_uN 8 ⟨[0x80, 0x88, 0x00], 0⟩ =
      .error (.err (.invalidLeb false 8 0 mid))) := by
  constructor
  · exact C3_uN_rejection.2.2.2.1 8 ⟨[0x83, 0x10], 0⟩ [0x83] 0x10 []
      (Or.inl rfl) rfl (by decide) (by decide) (by decide) (by decide)
  · exact C3_uN_rejection.2.2.2.2.1 8 ⟨[0x80, 0x88, 0x00], 0⟩ [0x80] 0x88 [0x00]
      (Or.inl rfl) rfl (by decide) (by decide) (by decide) (by decide)

/-!
Minimal LEB128 encoders (the reference notion the round-trip law quantifies
over).  They are structurally recursive on a fuel argument so that they
reduce definitionally; the fuel dominates the number of emitted bytes. -/

def encodeUAux : Nat → Nat → List Nat
  | 0, x => [x % 0x80]
  | fuel + 1, x => if x < 0x80 then [x] else (x % 0x80 + 0x80) :: encodeUAux fuel (x / 0x80)

/-- Minimal unsigned LEB128 encoding of `x`. -/
def uLEB_encode (x : Nat) : List Nat := encodeUAux x x

theorem encodeUAux_congr :
    ∀ (f₁ : Nat) (x : Nat), x ≤ f₁ → ∀ (f₂ : Nat), x ≤ f₂ →
      encodeUAux f₁ x = encodeUAux f₂ x := by
  intro f₁
  induction f₁ with
  | zero =>
    intro x hx f₂ hx₂
    obtain rfl : x = 0 := by omega
    cases f₂ <;> simp [encodeUAux]
  | succ f₁ ih =>
    intro x hx f₂ hx₂
    cases f₂ with
    | zero =>
      obtain rfl : x = 0 := by omega
      simp [encodeUAux]
    | succ f₂ =>
      simp only [encodeUAux]
      by_cases hsmall : x < 0x80
      · rw [if_pos hsmall, if_pos hsmall]
      · rw [if_neg hsmall, if_neg hsmall]
        have hdiv : x / 0x80 < x := Nat.div_lt_self (by omega) (by omega)
        rw [ih (x / 0x80) (by omega) f₂ (by omega)]

/-- The recurrence satisfied by the minimal unsigned encoder. -/
theorem uLEB_encode_eq (x : Nat) :
    uLEB_encode x = if x < 0x80 then [x] else (x % 0x80 + 0x80) :: uLEB_encode (x / 0x80) := by
  unfold uLEB_encode
  by_cases hsmall : x < 0x80
  · rw [if_pos hsmall]
    cases hx : x with
    | zero => simp [encodeUAux]
    | succ n =>
      simp only [encodeUAux]
      rw [if_pos (by omega)]
  · rw [if_neg hsmall]
    have h1 : 1 ≤ x := by omega
    obtain ⟨f, rfl⟩ : ∃ f, x = f + 1 := ⟨x - 1, by omega⟩
    simp only [encodeUAux]
    rw [if_neg hsmall]
    have hdiv : (f + 1) / 0x80 < f + 1 := Nat.div_lt_self (by omega) (by omega)
    rw [encodeUAux_congr f ((f + 1) / 0x80) (by omega) ((f + 1) / 0x80) (le_refl _)]

def encodeSAux : Nat → Int → List Nat
  | 0, x => [(x % 0x80).toNat]
  | fuel + 1, x =>
    if -0x40 ≤ x ∧ x < 0x40 then [(x % 0x80).toNat]
    else ((x % 0x80).toNat + 0x80) :: encodeSAux fuel (x / 0x80)

/-- Minimal signed LEB128 encoding of `x` (low 7 bits per byte, arithmetic
shift by 7 between bytes, stopping once the remaining value is represented
by the sign bit of the last byte). -/
def sLEB_encode (x : Int) : List Nat := encodeSAux (x.natAbs + 1) x

theorem int_ediv_natAbs_lt (x : Int) (h : ¬(-0x40 ≤ x ∧ x < 0x40)) :
    (x / 0x80).natAbs < x.natAbs := by
  have hdm := Int.ediv_add_emod x 0x80
  have hm0 : 0 ≤ x % 0x80 := Int.emod_nonneg x (by norm_num)
  have hm1 : x % 0x80 < 0x80 := Int.emod_lt_of_pos x (by norm_num)
  omega

theorem encodeSAux_congr :
    ∀ (f₁ : Nat) (x : Int), x.natAbs ≤ f₁ → ∀ (f₂ : Nat), x.natAbs ≤ f₂ →
      encodeSAux f₁ x = encodeSAux f₂ x := by
  intro f₁
  induction f₁ with
  | zero =>
    intro x hx f₂ hx₂
    obtain rfl : x = 0 := by omega
    cases f₂ <;> simp [encodeSAux]
  | succ f₁ ih =>
    intro x hx f₂ hx₂
    cases f₂ with
    | zero =>
      obtain rfl : x = 0 := by omega
      simp [encodeSAux]
    | succ f₂ =>
      simp only [encodeSAux]
      by_cases hsmall : -0x40 ≤ x ∧ x < 0x40
      · rw [if_pos hsmall, if_pos hsmall]
      · rw [if_neg hsmall, if_neg hsmall]
        have hdiv := int_ediv_natAbs_lt x hsmall
        rw [ih (x / 0x80) (by omega) f₂ (by omega)]

/-- The recurrence satisfied by the minimal signed encoder. -/
theorem sLEB_encode_eq (x : Int) :
    sLEB_encode x = if -0x40 ≤ x ∧ x < 0x40 then [(x % 0x80).toNat]
      else ((x % 0x80).toNat + 0x80) :: sLEB_encode (x / 0x80) := by
  by_cases hsmall : -0x40 ≤ x ∧ x < 0x40
  · rw [if_pos hsmall]
    show encodeSAux (x.natAbs + 1) x = _
    simp only [encodeSAux]
    rw [if_pos hsmall]
  · rw [if_neg hsmall]
    show encodeSAux (x.natAbs + 1) x = _
    simp only [encodeSAux]
    rw [if_neg hsmall]
    have hdiv := int_ediv_natAbs_lt x hsmall
    congr 1
    exact encodeSAux_congr x.natAbs (x / 0x80) (by omega) ((x / 0x80).natAbs + 1) (by omega)

/-- A value below `2^k` OR-ed with a multiple of `2^k` is their sum (the bit
ranges are disjoint). -/
theorem lor_two_pow_mul_eq_add :
    ∀ (k a b : Nat), a < 2 ^ k → a ||| 2 ^ k * b = a + 2 ^ k * b := by
  intro k
  induction k with
  | zero =>
    intro a b h
    obtain rfl : a = 0 := by omega
    simp
  | succ k ih =>
    intro a b h
    conv_lhs => rw [← Nat.bit_decide_mod_two_eq_one_shiftRight_one a]
    have h2 : 2 ^ (k + 1) * b = Nat.bit false (2 ^ k * b) := by
      rw [Nat.bit_val]
      simp only [Bool.toNat_false, Nat.add_zero, pow_succ]
      ring
    rw [h2, Nat.lor_bit, Bool.or_false, Nat.shiftRight_one,
        ih (a / 2) b (by omega), Nat.bit_val, Nat.bit_val]
    have hmod : (decide (a % 2 = 1)).toNat = a % 2 := by
      rcases Nat.mod_two_eq_zero_or_one a with hm | hm <;> simp [hm]
    rw [hmod]
    simp only [Bool.toNat_false]
    omega

/-- A value below `2^k` OR-ed with anything divisible by `2^k` is their
sum. -/
theorem lor_eq_add_of_dvd {k a b : Nat} (ha : a < 2 ^ k) (hb : 2 ^ k ∣ b) :
    a ||| b = a + b := by
  obtain ⟨m, rfl⟩ := hb
  exact lor_two_pow_mul_eq_add k a m ha

theorem shl_i32_small {v s : Nat} (h : v * 2 ^ s < 2 ^ 31) : shl_i32 v s = v * 2 ^ s := by
  unfold shl_i32 sext32to64
  rw [Nat.mod_eq_of_lt (lt_trans h (by norm_num))]
  rw [if_pos h]

theorem shl_i32_mod32 (v s : Nat) : shl_i32 v s % 2 ^ 32 = (v * 2 ^ s) % 2 ^ 32 := by
  unfold shl_i32 sext32to64
  split
  · exact Nat.mod_mod_of_dvd _ dvd_rfl
  · rw [show (2 : Nat) ^ 64 - 2 ^ 32 = 2 ^ 32 * (2 ^ 32 - 1) from by norm_num,
      Nat.add_mul_mod_self_left]
    exact Nat.mod_mod_of_dvd _ dvd_rfl

theorem shl_i32_dvd {v s : Nat} (hs : s ≤ 32) : 2 ^ s ∣ shl_i32 v s := by
  unfold shl_i32 sext32to64
  have hw : 2 ^ s ∣ (v * 2 ^ s) % 2 ^ 32 := by
    have h1 : (2 : Nat) ^ s ∣ v * 2 ^ s := dvd_mul_left _ _
    have h2 : (2 : Nat) ^ s ∣ 2 ^ 32 := pow_dvd_pow 2 hs
    exact (Nat.dvd_mod_iff h2).mpr h1
  split
  · exact hw
  · refine Nat.dvd_add hw ?_
    have : (2 : Nat) ^ 64 - 2 ^ 32 = 2 ^ 32 * (2 ^ 32 - 1) := by norm_num
    rw [this]
    exact Dvd.dvd.mul_right (pow_dvd_pow 2 hs) _

theorem castS8_id {x : Int} (h₁ : -(2 ^ 7) ≤ x) (h₂ : x < 2 ^ 7) : castS 8 x = x := by
  unfold castS
  have hdm := Int.ediv_add_emod x (2 ^ 8)
  have hm0 : 0 ≤ x % 2 ^ 8 := Int.emod_nonneg x (by norm_num)
  have hm1 : x % 2 ^ 8 < 2 ^ 8 := Int.emod_lt_of_pos x (by norm_num)
  norm_num at hdm hm0 hm1 ⊢
  split <;> omega

theorem castS16_id {x : Int} (h₁ : -(2 ^ 15) ≤ x) (h₂ : x < 2 ^ 15) : castS 16 x = x := by
  unfold castS
  have hdm := Int.ediv_add_emod x (2 ^ 16)
  have hm0 : 0 ≤ x % 2 ^ 16 := Int.emod_nonneg x (by norm_num)
  have hm1 : x % 2 ^ 16 < 2 ^ 16 := Int.emod_lt_of_pos x (by norm_num)
  norm_num at hdm hm0 hm1 ⊢
  split <;> omega

theorem castS32_id {x : Int} (h₁ : -(2 ^ 31) ≤ x) (h₂ : x < 2 ^ 31) : castS 32 x = x := by
  unfold castS
  have hdm := Int.ediv_add_emod x (2 ^ 32)
  have hm0 : 0 ≤ x % 2 ^ 32 := Int.emod_nonneg x (by norm_num)
  have hm1 : x % 2 ^ 32 < 2 ^ 32 := Int.emod_lt_of_pos x (by norm_num)
  norm_num at hdm hm0 hm1 ⊢
  split <;> omega

theorem uN_loop_rt :
    ∀ (x : Nat) (rest : List Nat) (N errOff off Nnow shift acc : Nat),
      x < 2 ^ Nnow → shift + Nnow = N → N ≤ 32 → acc < 2 ^ shift →
      ∃ r, uN_loop N errOff (uLEB_encode x ++ rest) off Nnow shift acc =
          .ok (r, ⟨rest, off + (uLEB_encode x).length⟩) ∧
        r % 2 ^ 32 = (acc + x * 2 ^ shift) % 2 ^ 32 := by
  intro x
  induction x using Nat.strong_induction_on with
  | _ x ih =>
    intro rest N errOff off Nnow shift acc hx hNs hN32 hacc
    rw [uLEB_encode_eq x]
    by_cases hsmall : x < 0x80
    · rw [if_pos hsmall]
      simp only [List.cons_append, List.nil_append, List.length_cons, List.length_nil,
        uN_loop]
      rw [if_pos (and128_eq_zero hsmall)]
      rw [if_neg (by omega : ¬(Nnow < 8 ∧ 2 ^ Nnow ≤ x))]
      have hx7 : x &&& 0x7f = x := by
        rw [show (0x7f : Nat) = 2 ^ 7 - 1 from rfl, Nat.and_pow_two_sub_one_eq_mod]
        exact Nat.mod_eq_of_lt hsmall
      rw [hx7]
      have hdvd : 2 ^ shift ∣ shl_i32 x shift := shl_i32_dvd (by omega)
      refine ⟨acc ||| shl_i32 x shift, rfl, ?_⟩
      rw [lor_eq_add_of_dvd hacc hdvd]
      calc (acc + shl_i32 x shift) % 2 ^ 32
          = (acc % 2 ^ 32 + shl_i32 x shift % 2 ^ 32) % 2 ^ 32 := Nat.add_mod _ _ _
        _ = (acc % 2 ^ 32 + (x * 2 ^ shift) % 2 ^ 32) % 2 ^ 32 := by rw [shl_i32_mod32]
        _ = (acc + x * 2 ^ shift) % 2 ^ 32 := (Nat.add_mod _ _ _).symm
    · rw [if_neg hsmall]
      have hb1 : 0x80 ≤ x % 0x80 + 0x80 := by omega
      have hb2 : x % 0x80 + 0x80 < 0x100 := by
        have := Nat.mod_lt x (show 0 < 0x80 by omega)
        omega
      have hN8 : 8 ≤ Nnow := by
        have h7 : 2 ^ 7 ≤ x := by omega
        have : (2 : Nat) ^ 7 < 2 ^ Nnow := lt_of_le_of_lt h7 hx
        have := (Nat.pow_lt_pow_iff_right (by omega : 1 < 2)).mp this
        omega
      simp only [List.cons_append, List.length_cons, uN_loop]
      rw [if_neg (and128_ne_zero hb1 hb2)]
      rw [if_neg (by omega : ¬ Nnow ≤ 7)]
      have hb7 : (x % 0x80 + 0x80) &&& 0x7f = x % 0x80 := by
        rw [show (0x7f : Nat) = 2 ^ 7 - 1 from rfl, Nat.and_pow_two_sub_one_eq_mod]
        have : (0x80 : Nat) = 2 ^ 7 := by norm_num
        rw [this]
        omega
      rw [hb7]
      have hshift24 : shift ≤ 24 := by omega
      have hsm : (x % 0x80) * 2 ^ shift < 2 ^ 31 := by
        have h1 : (2 : Nat) ^ shift ≤ 2 ^ 24 := Nat.pow_le_pow_right (by omega) hshift24
        have h2 : (x % 0x80) * 2 ^ shift ≤ 127 * 2 ^ 24 := by
          have := Nat.mod_lt x (show 0 < 0x80 by omega)
          exact Nat.mul_le_mul (by omega) h1
        calc (x % 0x80) * 2 ^ shift ≤ 127 * 2 ^ 24 := h2
          _ < 2 ^ 31 := by norm_num
      rw [shl_i32_small hsm]
      have hor : acc ||| (x % 0x80) * 2 ^ shift = acc + (x % 0x80) * 2 ^ shift :=
        lor_eq_add_of_dvd hacc (dvd_mul_left _ _)
      rw [hor]
      have hp7 : (2 : Nat) ^ (shift + 7) = 2 ^ shift * 128 := by
        rw [pow_add]
        norm_num
      have hacc' : acc + (x % 0x80) * 2 ^ shift < 2 ^ (shift + 7) := by
        have hm : x % 0x80 ≤ 127 := by
          have := Nat.mod_lt x (show 0 < 0x80 by omega)
          omega
        have : (x % 0x80) * 2 ^ shift ≤ 127 * 2 ^ shift := Nat.mul_le_mul hm (le_refl _)
        omega
      have hxd : x / 0x80 < 2 ^ (Nnow - 7) := by
        rw [Nat.div_lt_iff_lt_mul (by omega : 0 < 0x80)]
        calc x < 2 ^ Nnow := hx
          _ = 2 ^ (Nnow - 7) * 0x80 := by
            rw [show (0x80 : Nat) = 2 ^ 7 from by norm_num, ← pow_add]
            congr 1
            omega
      obtain ⟨r, hr, hrmod⟩ := ih (x / 0x80) (Nat.div_lt_self (by omega) (by omega))
        rest N errOff (off + 1) (Nnow - 7) (shift + 7) (acc + (x % 0x80) * 2 ^ shift)
        hxd (by omega) hN32 hacc'
      refine ⟨r, ?_, ?_⟩
      · simp only [List.append_eq]
        rw [show off + ((uLEB_encode (x / 0x80)).length + 1) =
            off + 1 + (uLEB_encode (x / 0x80)).length from by omega]
        exact hr
      · rw [hrmod]
        congr 1
        have hx128 : x % 0x80 + 0x80 * (x / 0x80) = x := Nat.mod_add_div x 0x80
        calc acc + (x % 0x80) * 2 ^ shift + x / 0x80 * 2 ^ (shift + 7)
            = acc + (x % 0x80 + 0x80 * (x / 0x80)) * 2 ^ shift := by
              rw [hp7]
              ring
          _ = acc + x * 2 ^ shift := by rw [hx128]

/-- A byte below `0x40` has bit 6 clear. -/
theorem and64_eq_zero {t : Nat} (h : t < 0x40) : t &&& 0x40 = 0 := by
  have h1 : (0x40 : Nat) = 2 ^ 6 := by norm_num
  rw [h1, Nat.and_two_pow, Nat.testBit_lt_two_pow (by simpa using h)]
  rfl

/-- A byte in `[0x40, 0x80)` has bit 6 set. -/
theorem and64_ne_zero {c : Nat} (h : 0x40 ≤ c) (h2 : c < 0x80) : c &&& 0x40 ≠ 0 := by
  have h1 : (0x40 : Nat) = 2 ^ 6 := by norm_num
  rw [h1, Nat.and_two_pow]
  have ht : c.testBit 6 = true := by
    rw [Nat.testBit_to_div_mod]
    simp only [decide_eq_true_eq]
    omega
  simp [ht]

theorem sLEB_length_pos (x : Int) : 0 < (sLEB_encode x).length := by
  rw [sLEB_encode_eq]
  split <;> simp

/-- Cast of the 64-bit-wrapped product into the integers. -/
theorem natCast_mul_pow_mod64 (a s : Nat) :
    ((a * 2 ^ s % 2 ^ 64 : Nat) : Int) = (a : Int) * 2 ^ s % 2 ^ 64 := by
  push_cast
  ring_nf

set_option maxHeartbeats 1000000 in
theorem sN_loop_rt :
    ∀ (L : Nat) (x : Int) (rest : List Nat) (N errOff off Nnow shift acc : Nat),
      (sLEB_encode x).length ≤ L →
      1 ≤ Nnow →
      -(2 ^ (Nnow - 1) : Int) ≤ x → x < 2 ^ (Nnow - 1) →
      (0 ≤ x → x * 2 ^ shift < 2 ^ 31) →
      shift + 7 * ((sLEB_encode x).length - 1) ≤ 28 →
      shift + Nnow ≤ 64 →
      acc < 2 ^ shift →
      sN_loop N errOff (sLEB_encode x ++ rest) off Nnow shift acc =
        .ok (acc + ((x * 2 ^ shift) % (2 ^ 64 : Int)).toNat,
          ⟨rest, off + (sLEB_encode x).length⟩) := by
  intro L
  induction L with
  | zero =>
    intro x rest N errOff off Nnow shift acc hL
    exact absurd hL (by have := sLEB_length_pos x; omega)
  | succ L ih =>
    intro x rest N errOff off Nnow shift acc hL hN1 hlo hhi hpos hlen hsN hacc
    have hsh28 : shift ≤ 28 := by
      have := sLEB_length_pos x
      omega
    by_cases hsmall : -0x40 ≤ x ∧ x < 0x40
    · rw [sLEB_encode_eq x, if_pos hsmall] at hL hlen ⊢
      simp only [List.cons_append, List.nil_append, List.length_cons,
        List.length_nil, sN_loop]
      by_cases hxpos : 0 ≤ x
      · -- positive trailing byte
        have hb : (x % 0x80).toNat = x.toNat := by omega
        have hblt : x.toNat < 0x40 := by omega
        rw [hb]
        rw [if_pos (and128_eq_zero (by omega))]
        rw [if_pos (and64_eq_zero hblt)]
        have hcastp : ((2 ^ (Nnow - 1) : Nat) : Int) = (2 : Int) ^ (Nnow - 1) := by
          push_cast
          rfl
        have hrange : ¬(Nnow < 8 ∧ 2 ^ (Nnow - 1) ≤ x.toNat) := by
          rintro ⟨hn8, hge⟩
          have h1 : ((2 ^ (Nnow - 1) : Nat) : Int) ≤ (x.toNat : Int) := by
            exact_mod_cast hge
          rw [Int.toNat_of_nonneg hxpos, hcastp] at h1
          omega
        rw [if_neg hrange, if_neg (by omega : ¬ 32 ≤ shift)]
        have hb63 : x.toNat &&& 0x3f = x.toNat := by
          rw [show (0x3f : Nat) = 2 ^ 6 - 1 from rfl, Nat.and_pow_two_sub_one_eq_mod]
          exact Nat.mod_eq_of_lt hblt
        rw [hb63]
        have hps : (0 : Int) < 2 ^ shift := by positivity
        have hxs31 := hpos hxpos
        have hsm : x.toNat * 2 ^ shift < 2 ^ 31 := by
          have hc : ((x.toNat * 2 ^ shift : Nat) : Int) < ((2 ^ 31 : Nat) : Int) := by
            push_cast
            rw [Int.toNat_of_nonneg hxpos]
            exact_mod_cast hxs31
          exact_mod_cast hc
        rw [shl_i32_small hsm,
          lor_eq_add_of_dvd hacc (dvd_mul_left _ _)]
        have hv : ((x * 2 ^ shift) % (2 ^ 64 : Int)).toNat = x.toNat * 2 ^ shift := by
          have h0 : (0 : Int) ≤ x * 2 ^ shift := by positivity
          have h1 : x * 2 ^ shift < 2 ^ 64 := by
            calc x * 2 ^ shift < 2 ^ 31 := hxs31
              _ < 2 ^ 64 := by norm_num
          rw [Int.emod_eq_of_lt h0 h1]
          have hx2 : x * 2 ^ shift = ((x.toNat * 2 ^ shift : Nat) : Int) := by
            push_cast
            rw [Int.toNat_of_nonneg hxpos]
          rw [hx2, Int.toNat_natCast]
        rw [hv]
        simp
      · -- negative trailing byte
        push_neg at hxpos
        have hb : (x % 0x80).toNat = (x + 0x80).toNat := by omega
        have hbge : 0x40 ≤ (x + 0x80).toNat := by omega
        have hblt : (x + 0x80).toNat < 0x80 := by omega
        rw [hb]
        rw [if_pos (and128_eq_zero hblt)]
        rw [if_neg (and64_ne_zero hbge hblt)]
        have hrange : ¬(Nnow < 8 ∧ (x + 0x80).toNat < 2 ^ 7 - 2 ^ (Nnow - 1)) := by
          rintro ⟨hn8, hlt⟩
          have hp : (2 : Nat) ^ (Nnow - 1) ≤ 2 ^ 7 :=
            Nat.pow_le_pow_right (by omega) (by omega)
          have h1 : ((x + 0x80).toNat : Int) < ((2 ^ 7 - 2 ^ (Nnow - 1) : Nat) : Int) := by
            exact_mod_cast hlt
          have h2 : ((2 ^ 7 - 2 ^ (Nnow - 1) : Nat) : Int) =
              (2 : Int) ^ 7 - (2 : Int) ^ (Nnow - 1) := by
            rw [Nat.cast_sub hp]
            push_cast
            ring
          rw [Int.toNat_of_nonneg (by omega), h2] at h1
          norm_num at h1
          omega
        rw [if_neg hrange]
        have hs28 : (2 : Int) ^ shift ≤ 2 ^ 28 :=
          pow_le_pow_right₀ (by norm_num) hsh28
        have hps : (0 : Int) < 2 ^ shift := by positivity
        have hxlow : -(2 ^ 34) ≤ x * 2 ^ shift := by
          nlinarith
        have hneg : x * 2 ^ shift < 0 := mul_neg_of_neg_of_pos (by omega) hps
        norm_num at hxlow
        have hpat : ((x + 0x80).toNat + 2 ^ 64 - 0x80) * 2 ^ shift % 2 ^ 64 =
            (x * 2 ^ shift + 2 ^ 64).toNat := by
          have hstep : ((x + 0x80).toNat + 2 ^ 64 - 0x80 : Nat) = (x + 2 ^ 64).toNat := by
            have h64 : (2 : Int) ^ 64 = 18446744073709551616 := by norm_num
            have h64n : (2 : Nat) ^ 64 = 18446744073709551616 := by norm_num
            omega
          rw [hstep]
          have key : (((x + 2 ^ 64).toNat * 2 ^ shift % 2 ^ 64 : Nat) : Int) =
              ((x * 2 ^ shift + 2 ^ 64).toNat : Int) := by
            rw [natCast_mul_pow_mod64]
            rw [Int.toNat_of_nonneg (by
              have h64 : (2 : Int) ^ 64 = 18446744073709551616 := by norm_num
              omega : (0 : Int) ≤ x + 2 ^ 64)]
            rw [Int.toNat_of_nonneg (by
              have h64 : (2 : Int) ^ 64 = 18446744073709551616 := by norm_num
              omega : (0 : Int) ≤ x * 2 ^ shift + 2 ^ 64)]
            have hmul : (x + 2 ^ 64) * 2 ^ shift = x * 2 ^ shift + 2 ^ 64 * 2 ^ shift := by
              ring
            rw [hmul, Int.add_mul_emod_self_left]
            have h64 : (2 : Int) ^ 64 = 18446744073709551616 := by norm_num
            rw [h64]
            omega
          exact_mod_cast key
        rw [hpat]
        have hdvd : 2 ^ shift ∣ (x * 2 ^ shift + 2 ^ 64).toNat := by
          refine ⟨(x + 2 ^ (64 - shift)).toNat, ?_⟩
          have hge36 : (2 : Int) ^ 36 ≤ 2 ^ (64 - shift) :=
            pow_le_pow_right₀ (by norm_num) (by omega)
          have h36 : (2 : Int) ^ 36 = 68719476736 := by norm_num
          have h64 : (2 : Int) ^ 64 = 18446744073709551616 := by norm_num
          have key : ((x * 2 ^ shift + 2 ^ 64).toNat : Int) =
              (((2 ^ shift * (x + 2 ^ (64 - shift)).toNat : Nat)) : Int) := by
            rw [Nat.cast_mul, Nat.cast_pow,
              Int.toNat_of_nonneg (show (0 : Int) ≤ x * 2 ^ shift + 2 ^ 64 by
                rw [h64]; omega),
              Int.toNat_of_nonneg (show (0 : Int) ≤ x + 2 ^ (64 - shift) by
                rw [h36] at hge36; omega)]
            have hsplit : (2 : Int) ^ 64 = 2 ^ shift * 2 ^ (64 - shift) := by
              rw [← pow_add]
              congr 1
              omega
            rw [hsplit]
            push_cast
            ring
          exact_mod_cast key
        rw [lor_eq_add_of_dvd hacc hdvd]
        have hv : ((x * 2 ^ shift) % (2 ^ 64 : Int)).toNat = (x * 2 ^ shift + 2 ^ 64).toNat := by
          congr 1
          have h64 : (2 : Int) ^ 64 = 18446744073709551616 := by norm_num
          omega
        rw [hv]
        simp
    · -- continuation byte, then the rest of the encoding
      rw [sLEB_encode_eq x, if_neg hsmall] at hL hlen ⊢
      simp only [List.cons_append, List.length_cons, sN_loop]
      have hm0 : 0 ≤ x % 0x80 := Int.emod_nonneg x (by norm_num)
      have hm1 : x % 0x80 < 0x80 := Int.emod_lt_of_pos x (by norm_num)
      have hb1 : 0x80 ≤ (x % 0x80).toNat + 0x80 := by omega
      have hb2 : (x % 0x80).toNat + 0x80 < 0x100 := by omega
      rw [if_neg (and128_ne_zero hb1 hb2)]
      have hN8 : 8 ≤ Nnow := by
        by_contra hcon
        have h7 : Nnow - 1 ≤ 6 := by omega
        have hle : (2 : Int) ^ (Nnow - 1) ≤ 2 ^ 6 := pow_le_pow_right₀ (by norm_num) h7
        have h6 : (2 : Int) ^ 6 = 64 := by norm_num
        omega
      rw [if_neg (by omega : ¬ Nnow ≤ 7)]
      have hlen2 : 1 ≤ (sLEB_encode (x / 0x80)).length := sLEB_length_pos _
      have hsh21 : shift ≤ 21 := by
        simp only [List.length_cons] at hlen
        omega
      rw [if_neg (by omega : ¬ 32 ≤ shift)]
      have hb7 : ((x % 0x80).toNat + 0x80) &&& 0x7f = (x % 0x80).toNat := by
        rw [show (0x7f : Nat) = 2 ^ 7 - 1 from rfl, Nat.and_pow_two_sub_one_eq_mod]
        omega
      rw [hb7]
      have hsm : (x % 0x80).toNat * 2 ^ shift < 2 ^ 31 := by
        have h1 : (2 : Nat) ^ shift ≤ 2 ^ 21 := Nat.pow_le_pow_right (by omega) hsh21
        calc (x % 0x80).toNat * 2 ^ shift ≤ 127 * 2 ^ 21 := Nat.mul_le_mul (by omega) h1
          _ < 2 ^ 31 := by norm_num
      rw [shl_i32_small hsm,
        lor_eq_add_of_dvd hacc (dvd_mul_left _ _)]
      have hacc' : acc + (x % 0x80).toNat * 2 ^ shift < 2 ^ (shift + 7) := by
        have hp7 : (2 : Nat) ^ (shift + 7) = 2 ^ shift * 128 := by
          rw [pow_add]
          norm_num
        have hmle : (x % 0x80).toNat * 2 ^ shift ≤ 127 * 2 ^ shift :=
          Nat.mul_le_mul (by omega) (le_refl _)
        omega
      have hdm := Int.ediv_add_emod x 0x80
      have hsplitp : (2 : Int) ^ (Nnow - 1) = 2 ^ (Nnow - 7 - 1) * 0x80 := by
        rw [show (0x80 : Int) = 2 ^ 7 from by norm_num, ← pow_add]
        congr 1
        omega
      have hxd_lo : -(2 ^ (Nnow - 7 - 1) : Int) ≤ x / 0x80 := by
        rw [Int.le_ediv_iff_mul_le (by norm_num : (0 : Int) < 0x80)]
        omega
      have hxd_hi : x / 0x80 < (2 ^ (Nnow - 7 - 1) : Int) := by
        rw [Int.ediv_lt_iff_lt_mul (by norm_num : (0 : Int) < 0x80)]
        omega
      have hpos' : 0 ≤ x / 0x80 → (x / 0x80) * 2 ^ (shift + 7) < 2 ^ 31 := by
        intro hdp
        have hxp : 0 ≤ x := by
          by_contra hcon
          push_neg at hcon
          have := Int.ediv_neg' hcon (by norm_num : (0 : Int) < 0x80)
          omega
        have h1 : (x / 0x80) * 0x80 ≤ x := by omega
        have h2 : (x / 0x80) * 2 ^ (shift + 7) = ((x / 0x80) * 0x80) * 2 ^ shift := by
          rw [show ((0x80 : Int)) = 2 ^ 7 from by norm_num, pow_add]
          ring
        rw [h2]
        calc ((x / 0x80) * 0x80) * 2 ^ shift ≤ x * 2 ^ shift :=
              mul_le_mul_of_nonneg_right h1 (by positivity)
          _ < 2 ^ 31 := hpos hxp
      have hrec := ih (x / 0x80) rest N errOff (off + 1) (Nnow - 7) (shift + 7)
        (acc + (x % 0x80).toNat * 2 ^ shift)
        (by simp only [List.length_cons] at hL; omega)
        (by omega) hxd_lo hxd_hi hpos'
        (by simp only [List.length_cons] at hlen; omega)
        (by omega) hacc'
      simp only [List.append_eq]
      rw [hrec]
      have hlow : ((x % 0x80).toNat : Int) = x % 0x80 := Int.toNat_of_nonneg hm0
      have hp127 : (2 : Int) ^ (shift + 7) = 2 ^ shift * 0x80 := by
        rw [pow_add]
        norm_num
      have hps : (0 : Int) < 2 ^ shift := by positivity
      have hps7 : (0 : Int) < 2 ^ (shift + 7) := by positivity
      have hsum : (x % 0x80) * 2 ^ shift + x / 0x80 * 2 ^ (shift + 7) = x * 2 ^ shift := by
        rw [hp127]
        nlinarith [hdm]
      have hval : acc + (x % 0x80).toNat * 2 ^ shift +
          ((x / 0x80 * 2 ^ (shift + 7)) % (2 ^ 64 : Int)).toNat =
          acc + ((x * 2 ^ shift) % (2 ^ 64 : Int)).toNat := by
        by_cases hxp : 0 ≤ x
        · have hdp : 0 ≤ x / 0x80 := Int.ediv_nonneg hxp (by norm_num)
          have hbound : x * 2 ^ shift < 2 ^ 63 := by
            have hsb : (2 : Int) ^ (Nnow - 1) * 2 ^ shift ≤ 2 ^ 63 := by
              rw [← pow_add]
              exact pow_le_pow_right₀ (by norm_num) (by omega)
            nlinarith
          have hdivbound : x / 0x80 * 2 ^ (shift + 7) ≤ x * 2 ^ shift := by
            have h1 : (x / 0x80) * 0x80 ≤ x := by omega
            have h2 : x / 0x80 * 2 ^ (shift + 7) = ((x / 0x80) * 0x80) * 2 ^ shift := by
              rw [show ((0x80 : Int)) = 2 ^ 7 from by norm_num, pow_add]
              ring
            rw [h2]
            exact mul_le_mul_of_nonneg_right h1 (by positivity)
          have hm64a : (x / 0x80 * 2 ^ (shift + 7)) % (2 ^ 64 : Int) =
              x / 0x80 * 2 ^ (shift + 7) := by
            refine Int.emod_eq_of_lt (by positivity) ?_
            calc x / 0x80 * 2 ^ (shift + 7) ≤ x * 2 ^ shift := hdivbound
              _ < 2 ^ 63 := hbound
              _ < 2 ^ 64 := by norm_num
          have hm64b : (x * 2 ^ shift) % (2 ^ 64 : Int) = x * 2 ^ shift := by
            refine Int.emod_eq_of_lt (by positivity) ?_
            calc x * 2 ^ shift < 2 ^ 63 := hbound
              _ < 2 ^ 64 := by norm_num
          rw [hm64a, hm64b]
          have key : (((acc : Nat) + (x % 0x80).toNat * 2 ^ shift +
              (x / 0x80 * 2 ^ (shift + 7)).toNat : Nat) : Int) =
              (((acc : Nat) + (x * 2 ^ shift).toNat : Nat) : Int) := by
            push_cast
            rw [hlow,
              Int.toNat_of_nonneg
                (mul_nonneg hdp (show (0 : Int) ≤ 2 ^ (shift + 7) by positivity)),
              Int.toNat_of_nonneg (show (0 : Int) ≤ x * 2 ^ shift by positivity)]
            linarith [hsum]
          exact_mod_cast key
        · push_neg at hxp
          have hdp : x / 0x80 < 0 := Int.ediv_neg' hxp (by norm_num)
          have habs1 : -(2 ^ 63) ≤ x / 0x80 * 2 ^ (shift + 7) := by
            have h2 : -(2 ^ (Nnow - 7 - 1) : Int) * 2 ^ (shift + 7) ≤
                x / 0x80 * 2 ^ (shift + 7) :=
              mul_le_mul_of_nonneg_right hxd_lo (by positivity)
            have h3 : (2 : Int) ^ (Nnow - 7 - 1) * 2 ^ (shift + 7) ≤ 2 ^ 63 := by
              rw [← pow_add]
              exact pow_le_pow_right₀ (by norm_num) (by omega)
            nlinarith
          have habs2 : -(2 ^ 63) ≤ x * 2 ^ shift := by
            have h2 : -(2 ^ (Nnow - 1) : Int) * 2 ^ shift ≤ x * 2 ^ shift :=
              mul_le_mul_of_nonneg_right hlo (by positivity)
            have h3 : (2 : Int) ^ (Nnow - 1) * 2 ^ shift ≤ 2 ^ 63 := by
              rw [← pow_add]
              exact pow_le_pow_right₀ (by norm_num) (by omega)
            nlinarith
          have hneg1 : x / 0x80 * 2 ^ (shift + 7) < 0 :=
            mul_neg_of_neg_of_pos hdp (by positivity)
          have hneg2 : x * 2 ^ shift < 0 :=
            mul_neg_of_neg_of_pos hxp (by positivity)
          have h64 : (2 : Int) ^ 64 = 18446744073709551616 := by norm_num
          have h63 : (2 : Int) ^ 63 = 9223372036854775808 := by norm_num
          rw [h63] at habs1 habs2
          have hm64a : (x / 0x80 * 2 ^ (shift + 7)) % (2 ^ 64 : Int) =
              x / 0x80 * 2 ^ (shift + 7) + 2 ^ 64 := by
            rw [h64]
            omega
          have hm64b : (x * 2 ^ shift) % (2 ^ 64 : Int) = x * 2 ^ shift + 2 ^ 64 := by
            rw [h64]
            omega
          rw [hm64a, hm64b]
          have key : (((acc : Nat) + (x % 0x80).toNat * 2 ^ shift +
              (x / 0x80 * 2 ^ (shift + 7) + 2 ^ 64).toNat : Nat) : Int) =
              (((acc : Nat) + (x * 2 ^ shift + 2 ^ 64).toNat : Nat) : Int) := by
            push_cast
            rw [Int.toNat_of_nonneg (show (0 : Int) ≤
                x / 0x80 * 2 ^ (shift + 7) + 18446744073709551616 by omega),
              Int.toNat_of_nonneg (show (0 : Int) ≤
                x * 2 ^ shift + 18446744073709551616 by omega)]
            rw [hlow]
            linarith [hsum]
          exact_mod_cast key
      rw [hval, show off + 1 + (sLEB_encode (x / 0x80)).length =
        off + ((sLEB_encode (x / 0x80)).length + 1) from by omega]

/-- Length bound for the minimal signed encoder: a value within
`[-2^(7k+6), 2^(7k+6))` is encoded in at most `k + 1` bytes. -/
theorem sLEB_len_le :
    ∀ (k : Nat) (x : Int), -(2 ^ (7 * k + 6) : Int) ≤ x → x < 2 ^ (7 * k + 6) →
      (sLEB_encode x).length ≤ k + 1 := by
  intro k
  induction k with
  | zero =>
    intro x hlo hhi
    have hc : -0x40 ≤ x ∧ x < 0x40 := by
      norm_num at hlo hhi
      exact ⟨by omega, by omega⟩
    rw [sLEB_encode_eq x, if_pos hc]
    simp
  | succ k ih =>
    intro x hlo hhi
    rw [sLEB_encode_eq x]
    by_cases hsmall : -0x40 ≤ x ∧ x < 0x40
    · rw [if_pos hsmall]
      simp
    · rw [if_neg hsmall]
      simp only [List.length_cons]
      have hpow : (2 : Int) ^ (7 * (k + 1) + 6) = 2 ^ (7 * k + 6) * 0x80 := by
        rw [show (0x80 : Int) = 2 ^ 7 from by norm_num, ← pow_add,
          show 7 * k + 6 + 7 = 7 * (k + 1) + 6 from by ring]
      have h1 : -(2 ^ (7 * k + 6) : Int) ≤ x / 0x80 := by
        rw [Int.le_ediv_iff_mul_le (by norm_num : (0 : Int) < 0x80)]
        rw [hpow] at hlo
        omega
      have h2 : x / 0x80 < (2 ^ (7 * k + 6) : Int) := by
        rw [Int.ediv_lt_iff_lt_mul (by norm_num : (0 : Int) < 0x80)]
        rw [hpow] at hhi
        omega
      have := ih (x / 0x80) h1 h2
      omega

/-- Reading the wrapped 64-bit pattern of an in-range value back as `int64_t`
recovers the value. -/
theorem toI64_emod (x : Int) (h1 : -(2 ^ 63 : Int) ≤ x) (h2 : x < 2 ^ 63) :
    toI64 ((x % (2 ^ 64 : Int)).toNat) = x := by
  have h63n : (2 : Nat) ^ 63 = 9223372036854775808 := by norm_num
  have h64 : (2 : Int) ^ 64 = 18446744073709551616 := by norm_num
  unfold toI64
  rcases le_or_lt 0 x with hx | hx
  · have hmx : x % (2 ^ 64 : Int) = x := Int.emod_eq_of_lt hx (by omega)
    rw [hmx, if_pos (by rw [h63n]; omega)]
    exact Int.toNat_of_nonneg hx
  · have hmx : x % (2 ^ 64 : Int) = x + 2 ^ 64 := by
      rw [h64]
      omega
    rw [hmx, if_neg (by rw [h63n, h64]; omega)]
    rw [Int.toNat_of_nonneg (by omega)]
    ring

/-- Parse-level unsigned round trip: decoding the minimal encoding of
`x < 2^N` (`N ≤ 32`) succeeds consuming exactly the encoding, and the
accumulated 64-bit pattern agrees with `x` modulo `2^N`. -/
theorem internal_parse_uN_rt (x : Nat) (rest : List Nat) (off N : Nat)
    (hx : x < 2 ^ N) (hN : N ≤ 32) :
    ∃ r, internal_parse_uN N ⟨uLEB_encode x ++ rest, off⟩ =
        .ok (r, ⟨rest, off + (uLEB_encode x).length⟩) ∧
      r % 2 ^ N = x := by
  obtain ⟨r, hr, hmod⟩ := uN_loop_rt x rest N off off N 0 0 hx (by omega) hN (by norm_num)
  refine ⟨r, hr, ?_⟩
  have hdvd : (2 : Nat) ^ N ∣ 2 ^ 32 := pow_dvd_pow 2 hN
  calc r % 2 ^ N = r % 2 ^ 32 % 2 ^ N := (Nat.mod_mod_of_dvd r hdvd).symm
    _ = (0 + x * 2 ^ 0) % 2 ^ 32 % 2 ^ N := by rw [hmod]
    _ = x % 2 ^ 32 % 2 ^ N := by norm_num
    _ = x % 2 ^ N := Nat.mod_mod_of_dvd x hdvd
    _ = x := Nat.mod_eq_of_lt hx

/-- Parse-level signed round trip, under the conditions within which the
32-bit shift arithmetic of the decoder is exact: at most five encoded bytes
and, for nonnegative values, a result below `2^31`. -/
theorem internal_parse_sN_rt (x : Int) (rest : List Nat) (off N : Nat)
    (hN1 : 1 ≤ N) (hN64 : N ≤ 64)
    (hlo : -(2 ^ (N - 1) : Int) ≤ x) (hhi : x < 2 ^ (N - 1))
    (hpos : 0 ≤ x → x < 2 ^ 31)
    (hlen : (sLEB_encode x).length ≤ 5)
    (h63lo : -(2 ^ 63 : Int) ≤ x) (h63hi : x < 2 ^ 63) :
    internal_parse_sN N ⟨sLEB_encode x ++ rest, off⟩ =
      .ok (x, ⟨rest, off + (sLEB_encode x).length⟩) := by
  have h := sN_loop_rt (sLEB_encode x).length x rest N off off N 0 0 (le_refl _)
    hN1 hlo hhi (fun h0 => by simpa using hpos h0) (by omega) (by omega) (by norm_num)
  have hdef : internal_parse_sN N ⟨sLEB_encode x ++ rest, off⟩ =
      match sN_loop N off (sLEB_encode x ++ rest) off N 0 0 with
      | .error e => .error e
      | .ok (p, s₁) => .ok (toI64 p, s₁) := rfl
  rw [hdef, h]
  simp only [zero_add, pow_zero, mul_one]
  rw [toI64_emod x h63lo h63hi]

/-- C4: LEB128 round-trip on corrected ranges.  Decoding the minimal LEB128
encoding succeeds, consumes exactly the encoding, and yields exactly the
encoded value for the full ranges of u8/u16/u32 and s8/s16/s32, for s33
values in `[-2^32, 2^31)` and for s64 values in `[-2^34, 2^31)`.  The
claim's full s33/s64 ranges do not hold: positive values of at least `2^31`
are misdecoded because the decoder computes each byte's contribution with a
32-bit `int` shift that wraps (see the counterexample), and s64 values below
`-2^34` need at least six bytes, driving that shift's count to 35 and
beyond, which is undefined behavior. -/
theorem C4_leb128_roundtrip (u : Nat) (x : Int) (rest : List Nat) (off : Nat) :
    (u < 2 ^ 8 → parse_u8 ⟨uLEB_encode u ++ rest, off⟩ =
      .ok (u, ⟨rest, off + (uLEB_encode u).length⟩)) ∧
    (u < 2 ^ 16 → parse_u16 ⟨uLEB_encode u ++ rest, off⟩ =
      .ok (u, ⟨rest, off + (uLEB_encode u).length⟩)) ∧
    (u < 2 ^ 32 → parse_u32 ⟨uLEB_encode u ++ rest, off⟩ =
      .ok (u, ⟨rest, off + (uLEB_encode u).length⟩)) ∧
    (-(2 ^ 7) ≤ x → x < 2 ^ 7 → parse_s8 ⟨sLEB_encode x ++ rest, off⟩ =
      .ok (x, ⟨rest, off + (sLEB_encode x).length⟩)) ∧
    (-(2 ^ 15) ≤ x → x < 2 ^ 15 → parse_s16 ⟨sLEB_encode x ++ rest, off⟩ =
      .ok (x, ⟨rest, off + (sLEB_encode x).length⟩)) ∧
    (-(2 ^ 31) ≤ x → x < 2 ^ 31 → parse_i32 ⟨sLEB_encode x ++ rest, off⟩ =
      .ok (x, ⟨rest, off + (sLEB_encode x).length⟩)) ∧
    (-(2 ^ 32) ≤ x → x < 2 ^ 31 → parse_s33 ⟨sLEB_encode x ++ rest, off⟩ =
      .ok (x, ⟨rest, off + (sLEB_encode x).length⟩)) ∧
    (-(2 ^ 34) ≤ x → x < 2 ^ 31 → parse_i64 ⟨sLEB_encode x ++ rest, off⟩ =
      .ok (x, ⟨rest, off + (sLEB_encode x).length⟩)) := by
  refine ⟨?_, ?_, ?_, ?_, ?_, ?_, ?_, ?_⟩
  · intro hu
    obtain ⟨r, hr, hm⟩ := internal_parse_uN_rt u rest off 8 hu (by omega)
    simp only [parse_u8, ParseM.map_apply, hr, hm]
  · intro hu
    obtain ⟨r, hr, hm⟩ := internal_parse_uN_rt u rest off 16 hu (by omega)
    simp only [parse_u16, ParseM.map_apply, hr, hm]
  · intro hu
    obtain ⟨r, hr, hm⟩ := internal_parse_uN_rt u rest off 32 hu (by omega)
    simp only [parse_u32, ParseM.map_apply, hr, hm]
  · intro h1 h2
    have hlen := sLEB_len_le 4 x (by omega) (by omega)
    have h := internal_parse_sN_rt x rest off 8 (by omega) (by omega)
      (by omega) (by omega) (fun _ => by omega) hlen (by omega) (by omega)
    simp only [parse_s8, ParseM.map_apply, h]
    rw [castS8_id h1 h2]
  · intro h1 h2
    have hlen := sLEB_len_le 4 x (by omega) (by omega)
    have h := internal_parse_sN_rt x rest off 16 (by omega) (by omega)
      (by omega) (by omega) (fun _ => by omega) hlen (by omega) (by omega)
    simp only [parse_s16, ParseM.map_apply, h]
    rw [castS16_id h1 h2]
  · intro h1 h2
    have hlen := sLEB_len_le 4 x (by omega) (by omega)
    have h := internal_parse_sN_rt x rest off 32 (by omega) (by omega)
      (by omega) (by omega) (fun _ => h2) hlen (by omega) (by omega)
    simp only [parse_i32, ParseM.map_apply, h]
    rw [castS32_id h1 h2]
  · intro h1 h2
    have hlen := sLEB_len_le 4 x (by omega) (by omega)
    exact internal_parse_sN_rt x rest off 33 (by omega) (by omega)
      (by omega) (by omega) (fun _ => h2) hlen (by omega) (by omega)
  · intro h1 h2
    have hlen := sLEB_len_le 4 x (by omega) (by omega)
    exact internal_parse_sN_rt x rest off 64 (by omega) (by omega)
      (by omega) (by omega) (fun _ => h2) hlen (by omega) (by omega)

/-- C4 witness: the round trip evaluated at one concrete value per decoder,
including boundary values of the corrected ranges. -/
theorem C4_leb128_roundtrip_witness :
    parse_u8 ⟨uLEB_encode 200 ++ [], 0⟩ =
      .ok (200, ⟨[], 0 + (uLEB_encode 200).length⟩) ∧
    parse_u16 ⟨uLEB_encode 40000 ++ [], 0⟩ =
      .ok (40000, ⟨[], 0 + (uLEB_encode 40000).length⟩) ∧
    parse_u32 ⟨uLEB_encode 3000000000 ++ [], 0⟩ =
      .ok (3000000000, ⟨[], 0 + (uLEB_encode 3000000000).length⟩) ∧
    parse_s8 ⟨sLEB_encode (-100) ++ [], 0⟩ =
      .ok (-100, ⟨[], 0 + (sLEB_encode (-100)).length⟩) ∧
    parse_s16 ⟨sLEB_encode (-30000) ++ [], 0⟩ =
      .ok (-30000, ⟨[], 0 + (sLEB_encode (-30000)).length⟩) ∧
    parse_i32 ⟨sLEB_encode (-2147483648) ++ [], 0⟩ =
      .ok (-2147483648, ⟨[], 0 + (sLEB_encode (-2147483648)).length⟩) ∧
    parse_s33 ⟨sLEB_encode (-4294967296) ++ [], 0⟩ =
      .ok (-4294967296, ⟨[], 0 + (sLEB_encode (-4294967296)).length⟩) ∧
    parse_i64 ⟨sLEB_encode (-17179869184) ++ [], 0⟩ =
      .ok (-17179869184, ⟨[], 0 + (sLEB_encode (-17179869184)).length⟩) :=
  ⟨(C4_leb128_roundtrip 200 0 [] 0).1 (by norm_num),
   (C4_leb128_roundtrip 40000 0 [] 0).2.1 (by norm_num),
   (C4_leb128_roundtrip 3000000000 0 [] 0).2.2.1 (by norm_num),
   (C4_leb128_roundtrip 0 (-100) [] 0).2.2.2.1 (by norm_num) (by norm_num),
   (C4_leb128_roundtrip 0 (-30000) [] 0).2.2.2.2.1 (by norm_num) (by norm_num),
   (C4_leb128_roundtrip 0 (-2147483648) [] 0).2.2.2.2.2.1 (by norm_num) (by norm_num),
   (C4_leb128_roundtrip 0 (-4294967296) [] 0).2.2.2.2.2.2.1 (by norm_num) (by norm_num),
   (C4_leb128_roundtrip 0 (-17179869184) [] 0).2.2.2.2.2.2.2 (by norm_num) (by norm_num)⟩

/-- C4 counterexample: `2^31` is in the representable range of s33 and its
minimal signed LEB128 encoding is `80 80 80 80 08`, yet `parse_s33` decodes
those bytes to `-2^31 = -2147483648`: the trailing byte's contribution
`8 << 28` is computed in 32-bit `int` arithmetic, wrapping to `INT32_MIN`
before the sign extension to 64 bits. -/
theorem C4_s33_wrap_counterexample :
    sLEB_encode (2 ^ 31) = [0x80, 0x80, 0x80, 0x80, 0x08] ∧
    parse_s33 ⟨[0x80, 0x80, 0x80, 0x80, 0x08], 0⟩ = .ok (-2147483648, ⟨[], 5⟩) ∧
    (-2147483648 : Int) ≠ 2 ^ 31 := by
  refine ⟨?_, ?_, by norm_num⟩
  · have e1 : (2 ^ 31 : Int) / 0x80 = 16777216 := by norm_num
    have e2 : (16777216 : Int) / 0x80 = 131072 := by norm_num
    have e3 : (131072 : Int) / 0x80 = 1024 := by norm_num
    have e4 : (1024 : Int) / 0x80 = 8 := by norm_num
    rw [sLEB_encode_eq, if_neg (by norm_num), e1,
      sLEB_encode_eq, if_neg (by norm_num), e2,
      sLEB_encode_eq, if_neg (by norm_num), e3,
      sLEB_encode_eq, if_neg (by norm_num), e4,
      sLEB_encode_eq, if_pos (by norm_num)]
    norm_num
    rfl
  · rfl

/-!
Paren structure of the emitted text (claim C2): running paren depth, prefix
nonnegativity, and absence of a `)(` adjacency, all as executable scans of
the output byte list. -/

/-- Depth change contributed by one output byte. -/
def pdelta (b : Nat) (d : Int) : Int :=
  if b = 40 then d + 1 else if b = 41 then d - 1 else d

/-- Paren depth after scanning the bytes, starting from depth `d`. -/
def runDepth : List Nat → Int → Int
  | [], d => d
  | b :: t, d => runDepth t (pdelta b d)

/-- Every prefix keeps a nonnegative paren depth (no `)` without a matching
earlier `(`), scanning from depth `d`. -/
def depthOk : List Nat → Int → Bool
  | [], _ => true
  | b :: t, d => (decide (0 ≤ pdelta b d)) && depthOk t (pdelta b d)

/-- No `)` byte immediately followed by a `(` byte; `p` records whether the
byte before the scanned bytes was `)`. -/
def noCOFrom : List Nat → Bool → Bool
  | [], _ => true
  | b :: t, p => (!(p && decide (b = 40))) && noCOFrom t (decide (b = 41))

/-- Whether the last byte is `)`; `p` is the answer for the empty list. -/
def lastIs41 : List Nat → Bool → Bool
  | [], p => p
  | b :: t, _ => lastIs41 t (decide (b = 41))

/-- The bytes contain neither `(` nor `)`. -/
def noParens (l : List Nat) : Bool :=
  l.all (fun b => decide (b ≠ 40) && decide (b ≠ 41))

theorem runDepth_append :
    ∀ (a b : List Nat) (d : Int), runDepth (a ++ b) d = runDepth b (runDepth a d) := by
  intro a
  induction a with
  | nil =>
    intro b d
    rfl
  | cons x t ih =>
    intro b d
    simp only [List.cons_append, runDepth]
    exact ih b (pdelta x d)

theorem depthOk_append :
    ∀ (a b : List Nat) (d : Int),
      depthOk (a ++ b) d = (depthOk a d && depthOk b (runDepth a d)) := by
  intro a
  induction a with
  | nil =>
    intro b d
    rfl
  | cons x t ih =>
    intro b d
    simp only [List.cons_append, depthOk, runDepth, List.append_eq, ih, Bool.and_assoc]

theorem noCOFrom_append :
    ∀ (a b : List Nat) (p : Bool),
      noCOFrom (a ++ b) p = (noCOFrom a p && noCOFrom b (lastIs41 a p)) := by
  intro a
  induction a with
  | nil =>
    intro b p
    rfl
  | cons x t ih =>
    intro b p
    simp only [List.cons_append, noCOFrom, lastIs41, List.append_eq, ih, Bool.and_assoc]

theorem lastIs41_append :
    ∀ (a b : List Nat) (p : Bool), lastIs41 (a ++ b) p = lastIs41 b (lastIs41 a p) := by
  intro a
  induction a with
  | nil =>
    intro b p
    rfl
  | cons x t ih =>
    intro b p
    simp only [List.cons_append, lastIs41, List.append_eq, ih]

/-- Scanning a paren-free chunk: the depth is unchanged, every prefix stays
at the (nonnegative) entry depth, no adjacency is created, and the chunk
ends in `)` only when it is empty and the previous byte was `)`. -/
theorem plain_facts :
    ∀ (l : List Nat), noParens l = true → ∀ (d : Int) (p : Bool), 0 ≤ d →
      runDepth l d = d ∧ depthOk l d = true ∧ noCOFrom l p = true ∧
        lastIs41 l p = (l.isEmpty && p) := by
  intro l
  induction l with
  | nil =>
    intro _ d p hd
    exact ⟨rfl, rfl, rfl, rfl⟩
  | cons b t ih =>
    intro h d p hd
    simp only [noParens, List.all_cons, Bool.and_eq_true, decide_eq_true_eq] at h
    obtain ⟨⟨hb40, hb41⟩, ht⟩ := h
    have hdelta : pdelta b d = d := by
      unfold pdelta
      rw [if_neg hb40, if_neg hb41]
    obtain ⟨h1, h2, h3, h4⟩ := ih ht d (decide (b = 41)) hd
    refine ⟨?_, ?_, ?_, ?_⟩
    · simp only [runDepth, hdelta, h1]
    · simp only [depthOk, hdelta, h2, Bool.and_true]
      simpa using hd
    · simp only [noCOFrom, h3, Bool.and_true]
      simp [hb40]
    · simp only [lastIs41, h4, List.isEmpty_cons]
      simp [hb41]

theorem hexDigit_ne_paren (n : Nat) : hexDigit n ≠ 40 ∧ hexDigit n ≠ 41 := by
  unfold hexDigit
  split <;> omega

theorem escByte_noParens (b : Nat) (h40 : b ≠ 40) (h41 : b ≠ 41) :
    noParens (escByte b) = true := by
  have h1 := hexDigit_ne_paren (b / 16)
  have h2 := hexDigit_ne_paren (b % 16)
  have h3 := hexDigit_ne_paren (256 - b)
  have h4 := hexDigit_ne_paren ((256 - b) / 16)
  have h5 := hexDigit_ne_paren ((256 - b) % 16)
  unfold escByte escHex
  split_ifs <;> simp_all [noParens] <;> split_ifs <;> simp_all

/-- Escaped strings whose bytes avoid the two paren characters stay free of
them after escaping. -/
theorem esc_flatten_noParens :
    ∀ (str : List Nat), (∀ b ∈ str, b ≠ 40 ∧ b ≠ 41) →
      noParens ((str.map escByte).flatten) = true := by
  intro str
  induction str with
  | nil =>
    intro _
    rfl
  | cons b t ih =>
    intro h
    obtain ⟨hb40, hb41⟩ := h b (by simp)
    have ht := ih (fun x hx => h x (by simp [hx]))
    have hb := escByte_noParens b hb40 hb41
    simp only [List.map_cons, List.flatten_cons, noParens, List.all_append,
      Bool.and_eq_true]
    exact ⟨hb, ht⟩

theorem decDigitsAux_noParens : ∀ (f n : Nat), noParens (decDigitsAux f n) = true := by
  intro f
  induction f with
  | zero =>
    intro n
    simp only [decDigitsAux, noParens, List.all_cons, List.all_nil, Bool.and_true,
      Bool.and_eq_true, decide_eq_true_eq]
    omega
  | succ f ih =>
    intro n
    simp only [decDigitsAux]
    split
    · simp only [noParens, List.all_cons, List.all_nil, Bool.and_true,
        Bool.and_eq_true, decide_eq_true_eq]
      omega
    · have := ih (n / 10)
      simp only [noParens, List.all_append, List.all_cons, List.all_nil,
        Bool.and_true, Bool.and_eq_true, decide_eq_true_eq] at this ⊢
      exact ⟨this, by omega⟩

theorem is_idchar_ne_paren (c : Nat) (h : is_idchar c = true) : c ≠ 40 ∧ c ≠ 41 := by
  constructor <;> rintro rfl <;> exact absurd h (by decide)

/-- The writer invariant of claim C2: the output has no `)(` adjacency,
every prefix keeps a nonnegative paren depth, the indent level is twice the
current depth (each `(` added two, each `)` subtracted two), the depth is
nonnegative, and output ending in `)` is flagged in `just_closed_sexp`, so
that the next `(` is separated by a space. -/
def Winv (w : Writer) : Prop :=
  noCOFrom w.out false = true ∧
  depthOk w.out 0 = true ∧
  w.indent_level = 2 * runDepth w.out 0 ∧
  0 ≤ runDepth w.out 0 ∧
  (lastIs41 w.out false = true → w.just_closed_sexp = true)

theorem initWriter_inv : Winv initWriter :=
  ⟨rfl, rfl, rfl, le_refl 0, fun h => Bool.noConfusion h⟩

/-- Appending a chunk whose scan facts are known, starting from an output
satisfying the paren facts. -/
theorem chunk_inv (out chunk : List Nat)
    (h1 : noCOFrom out false = true) (h2 : depthOk out 0 = true)
    (hcno : noCOFrom chunk (lastIs41 out false) = true)
    (hcok : depthOk chunk (runDepth out 0) = true) :
    noCOFrom (out ++ chunk) false = true ∧
    depthOk (out ++ chunk) 0 = true ∧
    runDepth (out ++ chunk) 0 = runDepth chunk (runDepth out 0) ∧
    lastIs41 (out ++ chunk) false = lastIs41 chunk (lastIs41 out false) := by
  refine ⟨?_, ?_, ?_, ?_⟩
  · rw [noCOFrom_append, h1, hcno]
    rfl
  · rw [depthOk_append, h2, hcok]
    rfl
  · rw [runDepth_append]
  · rw [lastIs41_append]

theorem lex_maybe_ws_inv (w : Writer) (h : Winv w) :
    Winv (lex_maybe_ws w) ∧
    runDepth (lex_maybe_ws w).out 0 = runDepth w.out 0 ∧
    (lex_maybe_ws w).indent_level = w.indent_level ∧
    lastIs41 (lex_maybe_ws w).out false = false := by
  obtain ⟨h1, h2, h3, h4, h5⟩ := h
  unfold lex_maybe_ws
  by_cases hc : (w.need_ws || w.just_closed_sexp) = true
  · rw [if_pos hc]
    obtain ⟨p1, p2, p3, p4⟩ :=
      plain_facts [32] (by decide) (runDepth w.out 0) (lastIs41 w.out false) h4
    obtain ⟨c1, c2, c3, c4⟩ := chunk_inv w.out [32] h1 h2 p3 p2
    rw [p1] at c3
    rw [p4] at c4
    simp only [List.isEmpty_cons, Bool.false_and] at c4
    refine ⟨⟨c1, c2, by rw [c3]; exact h3, by rw [c3]; exact h4, ?_⟩, c3, rfl, c4⟩
    intro hl
    rw [c4] at hl
    exact Bool.noConfusion hl
  · rw [if_neg hc]
    refine ⟨⟨h1, h2, h3, h4, h5⟩, rfl, rfl, ?_⟩
    cases hb : lastIs41 w.out false with
    | false => rfl
    | true =>
      rw [h5 hb] at hc
      simp at hc

theorem tok_keyword_inv (k : List Nat) (hk : noParens k = true) (w : Writer)
    (h : Winv w) :
    Winv (tok_keyword k w) ∧
    runDepth (tok_keyword k w).out 0 = runDepth w.out 0 ∧
    (tok_keyword k w).indent_level = w.indent_level := by
  obtain ⟨⟨h1, h2, h3, h4, _⟩, hrd, hind, hlast⟩ := lex_maybe_ws_inv w h
  obtain ⟨p1, p2, p3, p4⟩ :=
    plain_facts k hk (runDepth (lex_maybe_ws w).out 0) (lastIs41 (lex_maybe_ws w).out false) h4
  obtain ⟨c1, c2, c3, c4⟩ := chunk_inv (lex_maybe_ws w).out k h1 h2 p3 p2
  rw [p1] at c3
  rw [p4, hlast, Bool.and_false] at c4
  have hout : (tok_keyword k w).out = (lex_maybe_ws w).out ++ k := rfl
  have hindeq : (tok_keyword k w).indent_level = (lex_maybe_ws w).indent_level := rfl
  refine ⟨⟨?_, ?_, ?_, ?_, ?_⟩, ?_, ?_⟩
  · rw [hout]
    exact c1
  · rw [hout]
    exact c2
  · rw [hout, hindeq, c3]
    exact h3
  · rw [hout, c3]
    exact h4
  · intro hl
    rw [hout, c4] at hl
    exact Bool.noConfusion hl
  · rw [hout, c3]
    exact hrd
  · rw [hindeq]
    exact hind

theorem paren40_facts (d : Int) (hd : 0 ≤ d) :
    noCOFrom [40] false = true ∧ depthOk [40] d = true ∧
    runDepth [40] d = d + 1 ∧ lastIs41 [40] false = false := by
  refine ⟨rfl, ?_, rfl, rfl⟩
  show (decide (0 ≤ d + 1) && true) = true
  simp only [Bool.and_true, decide_eq_true_eq]
  omega

theorem paren41_facts (d : Int) (hd : 1 ≤ d) (p : Bool) :
    noCOFrom [41] p = true ∧ depthOk [41] d = true ∧
    runDepth [41] d = d - 1 ∧ lastIs41 [41] p = true := by
  refine ⟨?_, ?_, rfl, rfl⟩
  · show (!(p && false) && true) = true
    simp
  · show (decide (0 ≤ d - 1) && true) = true
    simp only [Bool.and_true, decide_eq_true_eq]
    omega

theorem tok_left_paren_inv (w : Writer) (h : Winv w) :
    Winv (tok_left_paren w) ∧
    runDepth (tok_left_paren w).out 0 = runDepth w.out 0 + 1 ∧
    (tok_left_paren w).indent_level = w.indent_level + 2 := by
  obtain ⟨⟨h1, h2, h3, h4, _⟩, hrd, hind, hlast⟩ := lex_maybe_ws_inv w h
  obtain ⟨q1, q2, q3, q4⟩ := paren40_facts (runDepth (lex_maybe_ws w).out 0) h4
  obtain ⟨c1, c2, c3, c4⟩ := chunk_inv (lex_maybe_ws w).out [40] h1 h2
    (by rw [hlast]; exact q1) q2
  rw [q3] at c3
  rw [hlast, q4] at c4
  have hout : (tok_left_paren w).out = (lex_maybe_ws w).out ++ [40] := rfl
  have hindeq : (tok_left_paren w).indent_level = (lex_maybe_ws w).indent_level + 2 := rfl
  refine ⟨⟨?_, ?_, ?_, ?_, ?_⟩, ?_, ?_⟩
  · rw [hout]
    exact c1
  · rw [hout]
    exact c2
  · rw [hout, hindeq, c3, h3]
    ring
  · rw [hout, c3]
    omega
  · intro hl
    rw [hout, c4] at hl
    exact Bool.noConfusion hl
  · rw [hout, c3, hrd]
  · rw [hindeq, hind]

theorem tok_right_paren_inv (w : Writer) (h : Winv w) (hd : 1 ≤ runDepth w.out 0) :
    Winv (tok_right_paren w) ∧
    runDepth (tok_right_paren w).out 0 = runDepth w.out 0 - 1 ∧
    (tok_right_paren w).indent_level = w.indent_level - 2 := by
  obtain ⟨h1, h2, h3, h4, h5⟩ := h
  obtain ⟨q1, q2, q3, q4⟩ := paren41_facts (runDepth w.out 0) hd (lastIs41 w.out false)
  obtain ⟨c1, c2, c3, c4⟩ := chunk_inv w.out [41] h1 h2 q1 q2
  rw [q3] at c3
  rw [q4] at c4
  have hout : (tok_right_paren w).out = w.out ++ [41] := rfl
  have hindeq : (tok_right_paren w).indent_level = w.indent_level - 2 := rfl
  refine ⟨⟨?_, ?_, ?_, ?_, ?_⟩, ?_, hindeq⟩
  · rw [hout]
    exact c1
  · rw [hout]
    exact c2
  · rw [hout, hindeq, c3, h3]
    ring
  · rw [hout, c3]
    omega
  · intro _
    rfl
  · rw [hout, c3]

theorem nl_noParens (n : Nat) : noParens (10 :: List.replicate n 32) = true := by
  simp only [noParens, List.all_cons, Bool.and_eq_true, decide_eq_true_eq,
    List.all_eq_true]
  refine ⟨⟨by omega, by omega⟩, ?_⟩
  intro b hb
  rw [List.eq_of_mem_replicate hb]
  decide

theorem lex_nl_inv (w : Writer) (h : Winv w) :
    Winv (lex_nl w) ∧ runDepth (lex_nl w).out 0 = runDepth w.out 0 ∧
    (lex_nl w).indent_level = w.indent_level := by
  obtain ⟨h1, h2, h3, h4, h5⟩ := h
  obtain ⟨p1, p2, p3, p4⟩ := plain_facts (10 :: List.replicate w.indent_level.toNat 32)
    (nl_noParens _) (runDepth w.out 0) (lastIs41 w.out false) h4
  obtain ⟨c1, c2, c3, c4⟩ := chunk_inv w.out (10 :: List.replicate w.indent_level.toNat 32)
    h1 h2 p3 p2
  rw [p1] at c3
  rw [p4] at c4
  simp only [List.isEmpty_cons, Bool.false_and] at c4
  have hout : (lex_nl w).out = w.out ++ (10 :: List.replicate w.indent_level.toNat 32) := rfl
  have hindeq : (lex_nl w).indent_level = w.indent_level := rfl
  refine ⟨⟨?_, ?_, ?_, ?_, ?_⟩, ?_, hindeq⟩
  · rw [hout]
    exact c1
  · rw [hout]
    exact c2
  · rw [hout, hindeq, c3]
    exact h3
  · rw [hout, c3]
    exact h4
  · intro hl
    rw [hout, c4] at hl
    exact Bool.noConfusion hl
  · rw [hout, c3]

theorem bc_chunk_facts (c : List Nat) (hc : noParens c = true) (d : Int) (hd : 0 ≤ d) :
    noCOFrom ([40, 59] ++ c ++ [59, 41]) false = true ∧
    depthOk ([40, 59] ++ c ++ [59, 41]) d = true ∧
    runDepth ([40, 59] ++ c ++ [59, 41]) d = d ∧
    lastIs41 ([40, 59] ++ c ++ [59, 41]) false = true := by
  obtain ⟨p1, p2, p3, p4⟩ := plain_facts c hc (d + 1) false (by omega)
  have e1 : depthOk [40, 59] d = true := by
    show (decide (0 ≤ d + 1) && (decide (0 ≤ d + 1) && true)) = true
    simp only [Bool.and_true, Bool.and_eq_true, decide_eq_true_eq]
    constructor <;> omega
  have e2 : runDepth [40, 59] d = d + 1 := rfl
  have e3 : depthOk [59, 41] (d + 1) = true := by
    show (decide (0 ≤ d + 1) && (decide (0 ≤ d + 1 - 1) && true)) = true
    simp only [Bool.and_true, Bool.and_eq_true, decide_eq_true_eq]
    constructor <;> omega
  refine ⟨?_, ?_, ?_, ?_⟩
  · rw [noCOFrom_append, noCOFrom_append, lastIs41_append]
    have la : lastIs41 [40, 59] false = false := rfl
    rw [la, p3, p4]
    simp [noCOFrom]
  · rw [depthOk_append, depthOk_append, runDepth_append, e1, e2, p1, p2, e3]
    rfl
  · rw [runDepth_append, runDepth_append, e2, p1]
    show d + 1 - 1 = d
    omega
  · rw [lastIs41_append]
    rfl

theorem lex_blockcomment_inv (c : List Nat) (hc : noParens c = true) (w : Writer)
    (h : Winv w) :
    Winv (lex_blockcomment c w) ∧
    runDepth (lex_blockcomment c w).out 0 = runDepth w.out 0 ∧
    (lex_blockcomment c w).indent_level = w.indent_level := by
  obtain ⟨⟨h1, h2, h3, h4, _⟩, hrd, hind, hlast⟩ := lex_maybe_ws_inv w h
  obtain ⟨b1, b2, b3, b4⟩ := bc_chunk_facts c hc (runDepth (lex_maybe_ws w).out 0) h4
  obtain ⟨c1, c2, c3, c4⟩ := chunk_inv (lex_maybe_ws w).out ([40, 59] ++ c ++ [59, 41])
    h1 h2 (by rw [hlast]; exact b1) b2
  rw [b3] at c3
  rw [hlast, b4] at c4
  have hout : (lex_blockcomment c w).out =
      (lex_maybe_ws w).out ++ ([40, 59] ++ c ++ [59, 41]) := by
    show (lex_maybe_ws w).out ++ [40, 59] ++ c ++ [59, 41] = _
    simp only [List.append_assoc]
  have hindeq : (lex_blockcomment c w).indent_level = (lex_maybe_ws w).indent_level := rfl
  refine ⟨⟨?_, ?_, ?_, ?_, ?_⟩, ?_, ?_⟩
  · rw [hout]
    exact c1
  · rw [hout]
    exact c2
  · rw [hout, hindeq, c3]
    exact h3
  · rw [hout, c3]
    exact h4
  · intro _
    rfl
  · rw [hout, c3, hrd]
  · rw [hindeq, hind]

theorem string_chunk_noParens (f : List Nat) (hf : noParens f = true) :
    noParens ([34] ++ f ++ [34]) = true := by
  simp only [noParens, List.all_append] at hf ⊢
  rw [hf]
  decide

theorem tok_string_inv (str : List Nat) (hs : ∀ b ∈ str, b ≠ 40 ∧ b ≠ 41)
    (w : Writer) (h : Winv w) :
    Winv (tok_string str w) ∧
    runDepth (tok_string str w).out 0 = runDepth w.out 0 ∧
    (tok_string str w).indent_level = w.indent_level := by
  obtain ⟨⟨h1, h2, h3, h4, _⟩, hrd, hind, hlast⟩ := lex_maybe_ws_inv w h
  have hchunk : noParens ([34] ++ (str.map escByte).flatten ++ [34]) = true :=
    string_chunk_noParens _ (esc_flatten_noParens str hs)
  obtain ⟨p1, p2, p3, p4⟩ := plain_facts _ hchunk (runDepth (lex_maybe_ws w).out 0)
    (lastIs41 (lex_maybe_ws w).out false) h4
  obtain ⟨c1, c2, c3, c4⟩ := chunk_inv (lex_maybe_ws w).out
    ([34] ++ (str.map escByte).flatten ++ [34]) h1 h2 p3 p2
  rw [p1] at c3
  rw [p4] at c4
  have hemp : (([34] : List Nat) ++ (str.map escByte).flatten ++ [34]).isEmpty = false := by
    cases h34 : ([34] : List Nat) ++ (str.map escByte).flatten ++ [34] with
    | nil => exact absurd h34 (by simp)
    | cons a t => rfl
  rw [hemp, Bool.false_and] at c4
  have hout : (tok_string str w).out =
      (lex_maybe_ws w).out ++ ([34] ++ (str.map escByte).flatten ++ [34]) := by
    show (lex_maybe_ws w).out ++ [34] ++ (str.map escByte).flatten ++ [34] = _
    simp only [List.append_assoc]
  have hindeq : (tok_string str w).indent_level = (lex_maybe_ws w).indent_level := rfl
  refine ⟨⟨?_, ?_, ?_, ?_, ?_⟩, ?_, ?_⟩
  · rw [hout]
    exact c1
  · rw [hout]
    exact c2
  · rw [hout, hindeq, c3]
    exact h3
  · rw [hout, c3]
    exact h4
  · intro hl
    rw [hout, c4] at hl
    exact Bool.noConfusion hl
  · rw [hout, c3, hrd]
  · rw [hindeq, hind]

theorem tok_id_inv (id : List Nat) (hne : id ≠ []) (hid : ∀ c ∈ id, is_idchar c = true)
    (w : Writer) (h : Winv w) :
    ∃ w2, tok_id id w = .ok w2 ∧ Winv w2 ∧
      runDepth w2.out 0 = runDepth w.out 0 ∧ w2.indent_level = w.indent_level := by
  obtain ⟨⟨h1, h2, h3, h4, _⟩, hrd, hind, hlast⟩ := lex_maybe_ws_inv w h
  have hfind : id.find? (fun c => ! is_idchar c) = none := by
    rw [List.find?_eq_none]
    intro x hx
    simp [hid x hx]
  have hch : noParens ([36] ++ id) = true := by
    simp only [noParens, List.all_append, List.all_cons, List.all_nil, Bool.and_true,
      Bool.and_eq_true, decide_eq_true_eq, List.all_eq_true]
    refine ⟨⟨by omega, by omega⟩, ?_⟩
    intro b hb
    obtain ⟨hb1, hb2⟩ := is_idchar_ne_paren b (hid b hb)
    simp [hb1, hb2]
  obtain ⟨p1, p2, p3, p4⟩ := plain_facts _ hch (runDepth (lex_maybe_ws w).out 0)
    (lastIs41 (lex_maybe_ws w).out false) h4
  obtain ⟨c1, c2, c3, c4⟩ := chunk_inv (lex_maybe_ws w).out ([36] ++ id) h1 h2 p3 p2
  rw [p1] at c3
  rw [p4] at c4
  simp only [List.singleton_append, List.isEmpty_cons, Bool.false_and] at c4
  have hassoc : (lex_maybe_ws w).out ++ [36] ++ id = (lex_maybe_ws w).out ++ ([36] ++ id) := by
    simp only [List.append_assoc]
  have hok : tok_id id w = .ok { lex_maybe_ws w with
      out := (lex_maybe_ws w).out ++ [36] ++ id,
      need_ws := true, just_closed_sexp := false } := by
    unfold tok_id
    rw [if_neg (by simpa using hne), hfind]
  refine ⟨_, hok, ⟨?_, ?_, ?_, ?_, ?_⟩, ?_, ?_⟩
  · show noCOFrom ((lex_maybe_ws w).out ++ [36] ++ id) false = true
    rw [hassoc]
    exact c1
  · show depthOk ((lex_maybe_ws w).out ++ [36] ++ id) 0 = true
    rw [hassoc]
    exact c2
  · show (lex_maybe_ws w).indent_level = 2 * runDepth ((lex_maybe_ws w).out ++ [36] ++ id) 0
    rw [hassoc, c3]
    exact h3
  · show 0 ≤ runDepth ((lex_maybe_ws w).out ++ [36] ++ id) 0
    rw [hassoc, c3]
    exact h4
  · intro hl
    replace hl : lastIs41 ((lex_maybe_ws w).out ++ [36] ++ id) false = true := hl
    rw [hassoc, List.singleton_append, c4] at hl
    exact Bool.noConfusion hl
  · show runDepth ((lex_maybe_ws w).out ++ [36] ++ id) 0 = runDepth w.out 0
    rw [hassoc, c3]
    exact hrd
  · show (lex_maybe_ws w).indent_level = w.indent_level
    exact hind

theorem write_valtype_inv (v : Ast_valtype) (w : Writer) (h : Winv w) :
    Winv (write_valtype v w) ∧
    runDepth (write_valtype v w).out 0 = runDepth w.out 0 ∧
    (write_valtype v w).indent_level = w.indent_level := by
  cases v <;> exact tok_keyword_inv _ (by decide) w h

theorem write_valtypes_inv :
    ∀ (vs : List Ast_valtype) (w : Writer), Winv w →
      Winv (write_valtypes vs w) ∧
      runDepth (write_valtypes vs w).out 0 = runDepth w.out 0 ∧
      (write_valtypes vs w).indent_level = w.indent_level := by
  intro vs
  induction vs with
  | nil =>
    intro w h
    exact ⟨h, rfl, rfl⟩
  | cons v t ih =>
    intro w h
    obtain ⟨h1, h2, h3⟩ := write_valtype_inv v w h
    obtain ⟨g1, g2, g3⟩ := ih (write_valtype v w) h1
    have hwv : write_valtypes (v :: t) w = write_valtypes t (write_valtype v w) := rfl
    rw [hwv]
    exact ⟨g1, by rw [g2, h2], by rw [g3, h3]⟩

/-- One optional `(param ...)` or `(result ...)` block of `write_functype`. -/
theorem valtypes_block_inv (k : List Nat) (hk : noParens k = true)
    (vs : List Ast_valtype) (e : Bool) (w : Writer) (h : Winv w) :
    Winv (if e then w
      else tok_right_paren (write_valtypes vs (tok_keyword k (tok_left_paren w)))) ∧
    runDepth (if e then w
      else tok_right_paren (write_valtypes vs (tok_keyword k (tok_left_paren w)))).out 0 =
        runDepth w.out 0 ∧
    (if e then w
      else tok_right_paren (write_valtypes vs (tok_keyword k (tok_left_paren w)))).indent_level =
        w.indent_level := by
  cases e with
  | true => exact ⟨h, rfl, rfl⟩
  | false =>
    obtain ⟨a1, a2, a3⟩ := tok_left_paren_inv w h
    obtain ⟨b1, b2, b3⟩ := tok_keyword_inv k hk (tok_left_paren w) a1
    obtain ⟨c1, c2, c3⟩ := write_valtypes_inv vs (tok_keyword k (tok_left_paren w)) b1
    rw [b2, a2] at c2
    rw [b3, a3] at c3
    obtain ⟨d1, d2, d3⟩ := tok_right_paren_inv _ c1
      (by rw [c2]; have := h.2.2.2.1; omega)
    rw [c2] at d2
    rw [c3] at d3
    refine ⟨d1, ?_, ?_⟩
    · show runDepth (tok_right_paren (write_valtypes vs
        (tok_keyword k (tok_left_paren w)))).out 0 = runDepth w.out 0
      rw [d2]
      omega
    · show (tok_right_paren (write_valtypes vs
        (tok_keyword k (tok_left_paren w)))).indent_level = w.indent_level
      rw [d3]
      omega

theorem write_functype_inv (ft : Ast_functype) (w : Writer) (h : Winv w) :
    Winv (write_functype ft w) ∧
    runDepth (write_functype ft w).out 0 = runDepth w.out 0 ∧
    (write_functype ft w).indent_level = w.indent_level := by
  obtain ⟨a1, a2, a3⟩ := tok_left_paren_inv w h
  obtain ⟨b1, b2, b3⟩ := tok_keyword_inv (strBytes "func") (by decide) (tok_left_paren w) a1
  obtain ⟨c1, c2, c3⟩ := valtypes_block_inv (strBytes "param") (by decide) ft.params
    ft.params.isEmpty (tok_keyword (strBytes "func") (tok_left_paren w)) b1
  obtain ⟨d1, d2, d3⟩ := valtypes_block_inv (strBytes "result") (by decide) ft.results
    ft.results.isEmpty _ c1
  rw [c2, b2, a2] at d2
  rw [c3, b3, a3] at d3
  obtain ⟨e1, e2, e3⟩ := tok_right_paren_inv _ d1 (by rw [d2]; have := h.2.2.2.1; omega)
  rw [d2] at e2
  rw [d3] at e3
  refine ⟨e1, ?_, ?_⟩
  · calc runDepth (write_functype ft w).out 0 = runDepth w.out 0 + 1 - 1 := e2
      _ = runDepth w.out 0 := by omega
  · calc (write_functype ft w).indent_level = w.indent_level + 2 - 2 := e3
      _ = w.indent_level := by omega

theorem write_type_inv (i : Nat) (ft : Ast_functype) (w : Writer) (h : Winv w) :
    Winv (write_type i ft w) ∧
    runDepth (write_type i ft w).out 0 = runDepth w.out 0 ∧
    (write_type i ft w).indent_level = w.indent_level := by
  obtain ⟨a1, a2, a3⟩ := lex_nl_inv w h
  obtain ⟨b1, b2, b3⟩ := tok_left_paren_inv _ a1
  obtain ⟨c1, c2, c3⟩ := tok_keyword_inv (strBytes "type") (by decide) _ b1
  obtain ⟨d1, d2, d3⟩ := lex_blockcomment_inv (decDigits i) (decDigitsAux_noParens i i) _ c1
  obtain ⟨e1, e2, e3⟩ := write_functype_inv ft _ d1
  rw [d2, c2, b2, a2] at e2
  rw [d3, c3, b3, a3] at e3
  obtain ⟨f1, f2, f3⟩ := tok_right_paren_inv _ e1 (by rw [e2]; have := h.2.2.2.1; omega)
  rw [e2] at f2
  rw [e3] at f3
  refine ⟨f1, ?_, ?_⟩
  · calc runDepth (write_type i ft w).out 0 = runDepth w.out 0 + 1 - 1 := f2
      _ = runDepth w.out 0 := by omega
  · calc (write_type i ft w).indent_level = w.indent_level + 2 - 2 := f3
      _ = w.indent_level := by omega

theorem write_import_inv (imp : Ast_import)
    (hm : ∀ b ∈ imp.module, b ≠ 40 ∧ b ≠ 41) (hn : ∀ b ∈ imp.name, b ≠ 40 ∧ b ≠ 41)
    (w : Writer) (h : Winv w) :
    Winv (write_import imp w) ∧
    runDepth (write_import imp w).out 0 = runDepth w.out 0 ∧
    (write_import imp w).indent_level = w.indent_level := by
  obtain ⟨a1, a2, a3⟩ := lex_nl_inv w h
  obtain ⟨b1, b2, b3⟩ := tok_left_paren_inv _ a1
  obtain ⟨c1, c2, c3⟩ := tok_keyword_inv (strBytes "import") (by decide) _ b1
  obtain ⟨d1, d2, d3⟩ := tok_string_inv imp.module hm _ c1
  obtain ⟨e1, e2, e3⟩ := tok_string_inv imp.name hn _ d1
  rw [d2, c2, b2, a2] at e2
  rw [d3, c3, b3, a3] at e3
  obtain ⟨f1, f2, f3⟩ := tok_right_paren_inv _ e1 (by rw [e2]; have := h.2.2.2.1; omega)
  rw [e2] at f2
  rw [e3] at f3
  refine ⟨f1, ?_, ?_⟩
  · calc runDepth (write_import imp w).out 0 = runDepth w.out 0 + 1 - 1 := f2
      _ = runDepth w.out 0 := by omega
  · calc (write_import imp w).indent_level = w.indent_level + 2 - 2 := f3
      _ = w.indent_level := by omega

theorem write_types_inv :
    ∀ (ts : List Ast_functype) (i : Nat) (w : Writer), Winv w →
      Winv (write_types i ts w) ∧
      runDepth (write_types i ts w).out 0 = runDepth w.out 0 ∧
      (write_types i ts w).indent_level = w.indent_level := by
  intro ts
  induction ts with
  | nil =>
    intro i w h
    exact ⟨h, rfl, rfl⟩
  | cons ft rest ih =>
    intro i w h
    obtain ⟨a1, a2, a3⟩ := write_type_inv i ft w h
    obtain ⟨b1, b2, b3⟩ := ih (i + 1) _ a1
    have hwt : write_types i (ft :: rest) w = write_types (i + 1) rest (write_type i ft w) := rfl
    rw [hwt]
    exact ⟨b1, by rw [b2, a2], by rw [b3, a3]⟩

theorem write_imports_inv :
    ∀ (imps : List Ast_import) (w : Writer), Winv w →
      (∀ imp ∈ imps,
        (∀ b ∈ imp.module, b ≠ 40 ∧ b ≠ 41) ∧ (∀ b ∈ imp.name, b ≠ 40 ∧ b ≠ 41)) →
      Winv (write_imports imps w) ∧
      runDepth (write_imports imps w).out 0 = runDepth w.out 0 ∧
      (write_imports imps w).indent_level = w.indent_level := by
  intro imps
  induction imps with
  | nil =>
    intro w h _
    exact ⟨h, rfl, rfl⟩
  | cons imp rest ih =>
    intro w h hall
    obtain ⟨hm, hn⟩ := hall imp (by simp)
    obtain ⟨a1, a2, a3⟩ := write_import_inv imp hm hn w h
    obtain ⟨b1, b2, b3⟩ := ih _ a1 (fun x hx => hall x (by simp [hx]))
    have hwi : write_imports (imp :: rest) w = write_imports rest (write_import imp w) := rfl
    rw [hwi]
    exact ⟨b1, by rw [b2, a2], by rw [b3, a3]⟩

theorem write_module_inv (m : Ast_module) (w : Writer) (h : Winv w)
    (hname : ∀ nm, m.name = some nm → nm ≠ [] ∧ ∀ c ∈ nm, is_idchar c = true)
    (himp : ∀ imp ∈ m.imports,
      (∀ b ∈ imp.module, b ≠ 40 ∧ b ≠ 41) ∧ (∀ b ∈ imp.name, b ≠ 40 ∧ b ≠ 41)) :
    ∃ w2, write_module m w = .ok w2 ∧ Winv w2 ∧
      runDepth w2.out 0 = runDepth w.out 0 ∧ w2.indent_level = w.indent_level := by
  obtain ⟨a1, a2, a3⟩ := tok_left_paren_inv w h
  obtain ⟨b1, b2, b3⟩ := tok_keyword_inv (strBytes "module") (by decide) _ a1
  cases hm : m.name with
  | none =>
    have hred : write_module m w =
        .ok (tok_right_paren (write_imports m.imports (write_types 0 m.types
          (tok_keyword (strBytes "module") (tok_left_paren w))))) := by
      unfold write_module
      rw [hm]
    obtain ⟨c1, c2, c3⟩ := write_types_inv m.types 0 _ b1
    obtain ⟨d1, d2, d3⟩ := write_imports_inv m.imports _ c1 himp
    rw [c2, b2, a2] at d2
    rw [c3, b3, a3] at d3
    obtain ⟨e1, e2, e3⟩ := tok_right_paren_inv _ d1 (by rw [d2]; have := h.2.2.2.1; omega)
    rw [d2] at e2
    rw [d3] at e3
    exact ⟨_, hred, e1, by rw [e2]; omega, by rw [e3]; omega⟩
  | some nm =>
    obtain ⟨hne, hid⟩ := hname nm hm
    obtain ⟨w1, hw1, i1, i2, i3⟩ := tok_id_inv nm hne hid _ b1
    have hred : write_module m w =
        match tok_id nm (tok_keyword (strBytes "module") (tok_left_paren w)) with
        | .error e => .error e
        | .ok w1 => .ok (tok_right_paren (write_imports m.imports
            (write_types 0 m.types w1))) := by
      unfold write_module
      rw [hm]
    rw [hw1] at hred
    have hred2 : write_module m w = .ok (tok_right_paren (write_imports m.imports
        (write_types 0 m.types w1))) := hred
    obtain ⟨c1, c2, c3⟩ := write_types_inv m.types 0 w1 i1
    obtain ⟨d1, d2, d3⟩ := write_imports_inv m.imports _ c1 himp
    rw [c2, i2, b2, a2] at d2
    rw [c3, i3, b3, a3] at d3
    obtain ⟨e1, e2, e3⟩ := tok_right_paren_inv _ d1 (by rw [d2]; have := h.2.2.2.1; omega)
    rw [d2] at e2
    rw [d3] at e3
    exact ⟨_, hred2, e1, by rw [e2]; omega, by rw [e3]; omega⟩

/-- C2 (corrected): for modules whose name, when present, is a valid
identifier and whose import module/name strings avoid the two paren bytes,
`write_module` succeeds and the emitted text is structurally balanced (the
running paren depth never goes negative and ends at zero) and never contains
the substring `)(`; unconditionally, every `(` emission adds 2 to the indent
level and every `)` emission subtracts 2.  The claim's stronger version
quantifying over arbitrary byte strings is false: paren bytes inside import
strings are emitted verbatim between the quotes (see the counterexample),
and an invalid module name aborts mid-write, leaving `(module` unclosed. -/
theorem C2_writer_balance (m : Ast_module)
    (hname : ∀ nm, m.name = some nm → nm ≠ [] ∧ ∀ c ∈ nm, is_idchar c = true)
    (himp : ∀ imp ∈ m.imports,
      (∀ b ∈ imp.module, b ≠ 40 ∧ b ≠ 41) ∧ (∀ b ∈ imp.name, b ≠ 40 ∧ b ≠ 41)) :
    (∃ w, write_module m initWriter = .ok w ∧
      noCOFrom w.out false = true ∧ depthOk w.out 0 = true ∧ runDepth w.out 0 = 0) ∧
    (∀ w, (tok_left_paren w).indent_level = w.indent_level + 2) ∧
    (∀ w, (tok_right_paren w).indent_level = w.indent_level - 2) := by
  refine ⟨?_, ?_, fun w => rfl⟩
  · obtain ⟨w2, hw2, ⟨i1, i2, _, _, _⟩, hrd, _⟩ :=
      write_module_inv m initWriter initWriter_inv hname himp
    exact ⟨w2, hw2, i1, i2, by rw [hrd]; rfl⟩
  · intro w
    show (lex_maybe_ws w).indent_level + 2 = w.indent_level + 2
    unfold lex_maybe_ws
    split <;> rfl

/-- C2 witness: the corrected statement at a module named `$m` with one
(empty) function type and one import `"env" "f"`. -/
theorem C2_writer_balance_witness :
    (∃ w, write_module ⟨some (strBytes "m"), [⟨[], []⟩],
        [⟨strBytes "env", strBytes "f"⟩]⟩ initWriter = .ok w ∧
      noCOFrom w.out false = true ∧ depthOk w.out 0 = true ∧ runDepth w.out 0 = 0) ∧
    (∀ w, (tok_left_paren w).indent_level = w.indent_level + 2) ∧
    (∀ w, (tok_right_paren w).indent_level = w.indent_level - 2) :=
  C2_writer_balance ⟨some (strBytes "m"), [⟨[], []⟩], [⟨strBytes "env", strBytes "f"⟩]⟩
    (by intro nm hnm; cases hnm; exact ⟨by decide, by decide⟩) (by decide)

/-- C2 counterexample: for the module with one import whose module string is
`)(` and whose name string is `(`, the paren bytes are emitted verbatim
inside the quoted strings, so the output of `write_module` contains the
substring `)(` (`noCOFrom` is false) and its paren counts do not balance
(the running depth ends at 1, not 0). -/
theorem C2_unbalanced_counterexample :
    (write_module ⟨none, [], [⟨strBytes ")(", strBytes "("⟩]⟩ initWriter).map
      (fun w => (noCOFrom w.out false, decide (runDepth w.out 0 = 0))) =
    .ok (false, false) := by rfl

end Wasmtoolbox
